import Mathlib

/-!
# HMMsim: address mapping, hybrid memory controller and arguments

A shallow embedding of `include/Bank.H` (class `MemoryMapping`, the dirty
columns and the queued requests of class `Bank`), of `include/HybridMemory.H`
(the migration data model of class `HybridMemory`) and of
`include/Arguments.H` (the argument classes), followed by the properties
established about them.

Machine integers are natural numbers; a value of type `addrint` is below
`2 ^ 64` and a value of type `unsigned` or `uint32` is below `2 ^ 32`.
Where the C++ narrows a value the embedding reduces it modulo the width.
-/

namespace HMMsim

/-! ## Machine widths -/

/-- Number of bits of `addrint` and `uint64` (`Types.H` is not among the
sources; the specification asks for at least 48 bits, the simulator uses 64). -/
def addrBits : Nat := 64

/-- Number of bits of `unsigned` and `uint32`. -/
def unsignedBits : Nat := 32

/-- Bitwise complement of an `addrint` value (the C++ operator `~`). -/
def addrNot (x : Nat) : Nat := 2 ^ addrBits - 1 - x

/-! ## Bank.H: MappingType and MemoryMapping -/

/-- The enum `MappingType` of Bank.H. -/
inductive MappingType where
  | ROW_RANK_BANK_COL
  | ROW_COL_RANK_BANK
  | RANK_BANK_ROW_COL
  deriving DecidableEq

/-- The data members of class `MemoryMapping`, in declaration order. -/
structure MemoryMapping where
  numRanks : Nat
  banksPerRank : Nat
  rowsPerBank : Nat
  blocksPerRow : Nat
  blockSize : Nat
  mappingType : MappingType
  numBanks : Nat
  totalSize : Nat
  rankWidth : Nat
  bankWidth : Nat
  rowWidth : Nat
  columnWidth : Nat
  blockWidth : Nat
  rankOffset : Nat
  bankOffset : Nat
  rowOffset : Nat
  columnOffset : Nat
  blockOffset : Nat
  rankMask : Nat
  bankMask : Nat
  rowMask : Nat
  columnMask : Nat
  blockMask : Nat
  deriving DecidableEq

namespace MemoryMapping

/-- Source: `unsigned getNumBanks() {return numBanks;}` -/
def getNumBanks (m : MemoryMapping) : Nat := m.numBanks

/-- Source: `unsigned getBlocksPerRow() {return blocksPerRow;}` -/
def getBlocksPerRow (m : MemoryMapping) : Nat := m.blocksPerRow

/-- Source: `uint64 getTotalSize() {return totalSize;}` -/
def getTotalSize (m : MemoryMapping) : Nat := m.totalSize

/-- Source: `addrint getRankIndex(addrint addr) {return (addr & rankMask) >> rankOffset;}` -/
def getRankIndex (m : MemoryMapping) (addr : Nat) : Nat :=
  (addr &&& m.rankMask) >>> m.rankOffset

/-- Source: `addrint getBankIndex(addrint addr) {return (addr & bankMask) >> bankOffset;}` -/
def getBankIndex (m : MemoryMapping) (addr : Nat) : Nat :=
  (addr &&& m.bankMask) >>> m.bankOffset

/-- Source: `addrint getRowIndex(addrint addr) {return (addr & rowMask) >> rowOffset;}` -/
def getRowIndex (m : MemoryMapping) (addr : Nat) : Nat :=
  (addr &&& m.rowMask) >>> m.rowOffset

/-- Source: `addrint getColumnIndex(addrint addr) {return (addr & columnMask) >> columnOffset;}` -/
def getColumnIndex (m : MemoryMapping) (addr : Nat) : Nat :=
  (addr &&& m.columnMask) >>> m.columnOffset

/-- Source: `addrint getBlockIndex(addrint addr) {return (addr & blockMask) >> blockOffset;}` -/
def getBlockIndex (m : MemoryMapping) (addr : Nat) : Nat :=
  (addr &&& m.blockMask) >>> m.blockOffset

/-- Source: `unsigned getBankId(addrint addr) {return (getRankIndex(addr) << bankWidth) | getBankIndex(addr);}`
The shift is computed on `addrint`, the result is narrowed to `unsigned`. -/
def getBankId (m : MemoryMapping) (addr : Nat) : Nat :=
  ((((m.getRankIndex addr) <<< m.bankWidth) % 2 ^ addrBits) ||| m.getBankIndex addr)
    % 2 ^ unsignedBits

/-- Source: `unsigned getBlockSize() {return blockSize;}` -/
def getBlockSize (m : MemoryMapping) : Nat := m.blockSize

/-- Source: `addrint getBlockAddress(addrint addr) {return addr & ~blockMask;}` -/
def getBlockAddress (m : MemoryMapping) (addr : Nat) : Nat :=
  addr &&& addrNot m.blockMask

end MemoryMapping

/-- Halving loop behind `log2`: the number of times `n` can be halved before
it drops below two, with `fuel` bounding the number of rounds. -/
def log2Loop : Nat → Nat → Nat
  | 0, _ => 0
  | fuel + 1, n => if n < 2 then 0 else log2Loop fuel (n / 2) + 1

/-- Base-two logarithm of a size, rounded down (`log2 0 = 0`). -/
def log2 (n : Nat) : Nat := log2Loop n n

/-- Whether an `unsigned` size is a power of two. -/
def isPowerOfTwo (n : Nat) : Bool := 2 ^ log2 n == n

/-- The `addrint` mask of a field of `width` bits whose lowest bit is `offset`. -/
def fieldMask (width offset : Nat) : Nat :=
  ((2 ^ width - 1) <<< offset) % 2 ^ addrBits

/-- Modelled from the spec: the field layout computed by the constructor
`MemoryMapping::MemoryMapping`, whose body (Bank.cpp) is not among the
sources. Section 4.2: each width is the base-two logarithm of its size, the
block field is lowest, and the mapping type gives the order of the other
four fields (high to low: row rank bank column, row column rank bank,
rank bank row column). `numBanks` is an `unsigned`, `totalSize` a `uint64`. -/
def MemoryMapping.layout (mappingTypeArg : MappingType)
    (numRanksArg banksPerRankArg rowsPerBankArg blocksPerRowArg blockSizeArg : Nat) :
    MemoryMapping :=
  let rankWidth := log2 numRanksArg
  let bankWidth := log2 banksPerRankArg
  let rowWidth := log2 rowsPerBankArg
  let columnWidth := log2 blocksPerRowArg
  let blockWidth := log2 blockSizeArg
  let blockOffset := 0
  let columnOffset :=
    match mappingTypeArg with
    | .ROW_RANK_BANK_COL => blockOffset + blockWidth
    | .ROW_COL_RANK_BANK => blockOffset + blockWidth + bankWidth + rankWidth
    | .RANK_BANK_ROW_COL => blockOffset + blockWidth
  let bankOffset :=
    match mappingTypeArg with
    | .ROW_RANK_BANK_COL => blockOffset + blockWidth + columnWidth
    | .ROW_COL_RANK_BANK => blockOffset + blockWidth
    | .RANK_BANK_ROW_COL => blockOffset + blockWidth + columnWidth + rowWidth
  let rankOffset := bankOffset + bankWidth
  let rowOffset :=
    match mappingTypeArg with
    | .ROW_RANK_BANK_COL => rankOffset + rankWidth
    | .ROW_COL_RANK_BANK => columnOffset + columnWidth
    | .RANK_BANK_ROW_COL => columnOffset + columnWidth
  { numRanks := numRanksArg
    banksPerRank := banksPerRankArg
    rowsPerBank := rowsPerBankArg
    blocksPerRow := blocksPerRowArg
    blockSize := blockSizeArg
    mappingType := mappingTypeArg
    numBanks := (numRanksArg * banksPerRankArg) % 2 ^ unsignedBits
    totalSize :=
      (numRanksArg * banksPerRankArg * rowsPerBankArg * blocksPerRowArg * blockSizeArg)
        % 2 ^ addrBits
    rankWidth := rankWidth
    bankWidth := bankWidth
    rowWidth := rowWidth
    columnWidth := columnWidth
    blockWidth := blockWidth
    rankOffset := rankOffset
    bankOffset := bankOffset
    rowOffset := rowOffset
    columnOffset := columnOffset
    blockOffset := blockOffset
    rankMask := fieldMask rankWidth rankOffset
    bankMask := fieldMask bankWidth bankOffset
    rowMask := fieldMask rowWidth rowOffset
    columnMask := fieldMask columnWidth columnOffset
    blockMask := fieldMask blockWidth blockOffset }

/-- Modelled from the spec: the constructor `MemoryMapping::MemoryMapping`
(Bank.cpp is not among the sources). Sections 4.2 and 7: each of the five
sizes must be a power of two, anything else is fatal at construction. -/
def MemoryMapping.create (mappingTypeArg : MappingType)
    (numRanksArg banksPerRankArg rowsPerBankArg blocksPerRowArg blockSizeArg : Nat) :
    Option MemoryMapping :=
  if isPowerOfTwo numRanksArg && isPowerOfTwo banksPerRankArg && isPowerOfTwo rowsPerBankArg
      && isPowerOfTwo blocksPerRowArg && isPowerOfTwo blockSizeArg then
    some (MemoryMapping.layout mappingTypeArg numRanksArg banksPerRankArg rowsPerBankArg
      blocksPerRowArg blockSizeArg)
  else
    none

/-- The five index fields of a decomposed address. -/
structure AddressFields where
  rank : Nat
  bank : Nat
  row : Nat
  column : Nat
  block : Nat
  deriving DecidableEq

/-- Decomposition of an address with the five index getters. -/
def MemoryMapping.decompose (m : MemoryMapping) (addr : Nat) : AddressFields :=
  { rank := m.getRankIndex addr
    bank := m.getBankIndex addr
    row := m.getRowIndex addr
    column := m.getColumnIndex addr
    block := m.getBlockIndex addr }

/-- Reassembly as the specification words it: every index is shifted left by
the offset of its field and the five results are OR-ed together. -/
def MemoryMapping.reassemble (m : MemoryMapping) (f : AddressFields) : Nat :=
  (f.rank <<< m.rankOffset) ||| (f.bank <<< m.bankOffset) ||| (f.row <<< m.rowOffset)
    ||| (f.column <<< m.columnOffset) ||| (f.block <<< m.blockOffset)

/-- The five fields of an address. -/
inductive Field where
  | rank
  | bank
  | row
  | column
  | block
  deriving DecidableEq

/-- The table of section 4.2 of the specification, high to low bit order. -/
def tableOrder : MappingType → List Field
  | .ROW_RANK_BANK_COL => [.row, .rank, .bank, .column, .block]
  | .ROW_COL_RANK_BANK => [.row, .column, .rank, .bank, .block]
  | .RANK_BANK_ROW_COL => [.rank, .bank, .row, .column, .block]

/-- Width of a field of a mapping. -/
def MemoryMapping.widthOf (m : MemoryMapping) : Field → Nat
  | .rank => m.rankWidth
  | .bank => m.bankWidth
  | .row => m.rowWidth
  | .column => m.columnWidth
  | .block => m.blockWidth

/-- Offset of a field of a mapping. -/
def MemoryMapping.offsetOf (m : MemoryMapping) : Field → Nat
  | .rank => m.rankOffset
  | .bank => m.bankOffset
  | .row => m.rowOffset
  | .column => m.columnOffset
  | .block => m.blockOffset

/-- Size (number of values) of a field of a mapping. -/
def MemoryMapping.sizeOf (m : MemoryMapping) : Field → Nat
  | .rank => m.numRanks
  | .bank => m.banksPerRank
  | .row => m.rowsPerBank
  | .column => m.blocksPerRow
  | .block => m.blockSize

/-- Index getter of a field of a mapping. -/
def MemoryMapping.indexOf (m : MemoryMapping) : Field → Nat → Nat
  | .rank => m.getRankIndex
  | .bank => m.getBankIndex
  | .row => m.getRowIndex
  | .column => m.getColumnIndex
  | .block => m.getBlockIndex

/-- Total width of the fields that follow `f` in a high-to-low list: the bit
position at which `f` starts when the fields are packed without gaps from
bit 0. -/
def bitsBelow (width : Field → Nat) : List Field → Field → Nat
  | [], _ => 0
  | g :: rest, f =>
    if g = f then (rest.map width).sum else bitsBelow width rest f

/-! ## HybridMemory.H: the migration data model -/

/-- The enum `HybridMemory::BlockState`, in declaration order. -/
inductive BlockState where
  | NOT_READ
  | READING
  | BUFFERED
  | WRITTEN
  deriving DecidableEq

/-- Enumerator value of a block state (0, 1, 2, 3 in declaration order). -/
def BlockState.toNat : BlockState → Nat
  | .NOT_READ => 0
  | .READING => 1
  | .BUFFERED => 2
  | .WRITTEN => 3

/-- The two memories a hybrid memory holds pointers to (`Memory *dram`,
`Memory *pcm`); every `Memory *` of the controller is one of them. -/
inductive Tier where
  | DRAM
  | PCM
  deriving DecidableEq

/-- The struct `HybridMemory::Caller`; pointers are handles. -/
structure Caller where
  request : Nat
  callback : Nat
  deriving DecidableEq

/-- The struct `HybridMemory::BlockEntry`; `request` is `none` for the null
pointer. -/
structure BlockEntry where
  state : BlockState
  dirty : Bool
  request : Option Nat
  callers : List Caller
  startTime : Nat
  deriving DecidableEq

/-- Source: `BlockEntry() : state(NOT_READ), dirty(false), request(0), startTime(0) {}` -/
def BlockEntry.new : BlockEntry :=
  { state := .NOT_READ, dirty := false, request := none, callers := [], startTime := 0 }

/-- The struct `HybridMemory::MigrationEntry`; `blocks` is the `BlockList`
(`vector<BlockEntry>`). -/
structure MigrationEntry where
  destPage : Nat
  src : Tier
  dest : Tier
  readDelay : Nat
  writeDelay : Nat
  blocks : List BlockEntry
  blocksLeftToRead : Nat
  blockLeftToCompleteRead : Nat
  blocksLeftToWrite : Nat
  nextReadBlock : Int
  nextWriteBlock : Int
  rolledBack : Bool
  lastWrite : Nat
  startPageCopyTime : Nat
  deriving DecidableEq

/-- The constructor `MigrationEntry(destPageArg, srcArg, destArg, readDelayArg,
writeDelayArg, blocksLeftArg, startPageCopyTimeArg)`. Its initialiser list
names every member except `blocks`, which is therefore default-constructed:
an empty vector. -/
def MigrationEntry.new (destPageArg : Nat) (srcArg destArg : Tier)
    (readDelayArg writeDelayArg blocksLeftArg startPageCopyTimeArg : Nat) : MigrationEntry :=
  { destPage := destPageArg
    src := srcArg
    dest := destArg
    readDelay := readDelayArg
    writeDelay := writeDelayArg
    blocks := []
    blocksLeftToRead := blocksLeftArg
    blockLeftToCompleteRead := blocksLeftArg
    blocksLeftToWrite := blocksLeftArg
    nextReadBlock := 0
    nextWriteBlock := -1
    rolledBack := false
    lastWrite := 0
    startPageCopyTime := startPageCopyTimeArg }

/-- The struct `HybridMemory::CallbackEntry`. -/
structure CallbackEntry where
  callback : Nat
  callbackAddr : Nat
  partOfMigration : Bool
  page : Nat
  startTime : Nat
  deriving DecidableEq

/-- Source: `CallbackEntry(callbackArg, callbackAddrArg, partOfMigrationArg, pageArg, startTimeArg)` -/
def CallbackEntry.new (callbackArg callbackAddrArg : Nat) (partOfMigrationArg : Bool)
    (pageArg startTimeArg : Nat) : CallbackEntry :=
  { callback := callbackArg
    callbackAddr := callbackAddrArg
    partOfMigration := partOfMigrationArg
    page := pageArg
    startTime := startTimeArg }

/-- Modelled from the spec: the memory request (`MemoryHierarchy.H` is not
among the sources). Section 3: a carrier with an id (here the handle), a
physical address, a kind (read or write), a priority and a process id. -/
structure MemoryRequest where
  handle : Nat
  addr : Nat
  isWrite : Bool
  priority : Nat
  pid : Nat
  deriving DecidableEq

/-- The state of class `HybridMemory` that the migration logic works on:
the configuration members, the `MigrationTable` (`unordered_map` keyed by
source page), the `RolledBackTable`, the `callbacks` map keyed by request,
the two sets of stalled callers and the `notifications` list. Maps are
association lists; the statistics are left out. -/
structure HybridMemory where
  blockSize : Nat
  pageSize : Nat
  blocksPerPage : Nat
  dramMigrationReadDelay : Nat
  dramMigrationWriteDelay : Nat
  pcmMigrationReadDelay : Nat
  pcmMigrationWriteDelay : Nat
  completionThreshold : Nat
  pcmOffset : Nat
  migrations : List (Nat × MigrationEntry)
  rolledBackMigrations : List (Nat × Nat)
  callbacks : List (Nat × CallbackEntry)
  dramStalledCallers : List Nat
  pcmStalledCallers : List Nat
  notifications : List Caller
  deriving DecidableEq

/-- Lookup in a map kept as an association list (`unordered_map::find`). -/
def tableFind {β : Type} : List (Nat × β) → Nat → Option β
  | [], _ => none
  | (k, v) :: rest, key => if k = key then some v else tableFind rest key

/-- Removal of a key from a map (`unordered_map::erase`). -/
def tableErase {β : Type} : List (Nat × β) → Nat → List (Nat × β)
  | [], _ => []
  | (k, v) :: rest, key => if k = key then tableErase rest key else (k, v) :: tableErase rest key

/-- Replacement of the value stored under a key that is present. -/
def tableSet {β : Type} : List (Nat × β) → Nat → β → List (Nat × β)
  | [], _, _ => []
  | (k, v) :: rest, key, w =>
    if k = key then (k, w) :: rest else (k, v) :: tableSet rest key w

/-- Insertion that keeps an existing entry (`unordered_map::emplace`). -/
def tableEmplace {β : Type} (table : List (Nat × β)) (key : Nat) (v : β) : List (Nat × β) :=
  match tableFind table key with
  | some _ => table
  | none => (key, v) :: table

namespace HybridMemory

/-- Modelled from the spec: the constructor of `HybridMemory`
(HybridMemory.cpp is not among the sources). Section 7: sizes that are not
powers of two are fatal at construction; a page holds
`pageSize / blockSize` blocks; all tables start empty. -/
def create (blockSizeArg pageSizeArg dramMigrationReadDelayArg dramMigrationWriteDelayArg
    pcmMigrationReadDelayArg pcmMigrationWriteDelayArg completionThresholdArg
    pcmOffsetArg : Nat) : Option HybridMemory :=
  if isPowerOfTwo blockSizeArg && isPowerOfTwo pageSizeArg
      && decide (blockSizeArg ≤ pageSizeArg) then
    some
      { blockSize := blockSizeArg
        pageSize := pageSizeArg
        blocksPerPage := pageSizeArg / blockSizeArg
        dramMigrationReadDelay := dramMigrationReadDelayArg
        dramMigrationWriteDelay := dramMigrationWriteDelayArg
        pcmMigrationReadDelay := pcmMigrationReadDelayArg
        pcmMigrationWriteDelay := pcmMigrationWriteDelayArg
        completionThreshold := completionThresholdArg
        pcmOffset := pcmOffsetArg
        migrations := []
        rolledBackMigrations := []
        callbacks := []
        dramStalledCallers := []
        pcmStalledCallers := []
        notifications := [] }
  else
    none

/-- Modelled from the spec: the page of an address, step 1 of section 4.5.1
(`HybridMemory::access` is not among the sources):
`page = address >> log2(page_size)`. -/
def pageOf (hm : HybridMemory) (addr : Nat) : Nat :=
  addr >>> log2 hm.pageSize

/-- Modelled from the spec: the block of an address within its page, step 1
of section 4.5.1: `block = (address mod page_size) >> log2(block_size)`. -/
def blockOf (hm : HybridMemory) (addr : Nat) : Nat :=
  (addr % hm.pageSize) >>> log2 hm.blockSize

/-- Modelled from the spec: the tier that owns a physical address, step 3 of
section 4.5.1: below `pcm_offset` is DRAM, at or above is PCM. -/
def tierOf (hm : HybridMemory) (addr : Nat) : Tier :=
  if addr < hm.pcmOffset then .DRAM else .PCM

/-- Modelled from the spec: `tier_of(page)` of section 4.5.2, the tier that
owns the first address of the page. -/
def tierOfPage (hm : HybridMemory) (page : Nat) : Tier :=
  hm.tierOf (page <<< log2 hm.pageSize)

/-- The migration read delay of a tier. -/
def readDelayOf (hm : HybridMemory) : Tier → Nat
  | .DRAM => hm.dramMigrationReadDelay
  | .PCM => hm.pcmMigrationReadDelay

/-- The migration write delay of a tier. -/
def writeDelayOf (hm : HybridMemory) : Tier → Nat
  | .DRAM => hm.dramMigrationWriteDelay
  | .PCM => hm.pcmMigrationWriteDelay

end HybridMemory

/-- What `HybridMemory::access` does with a foreground request: hand it to a
tier under an effective address (the tier accepts or rejects it), satisfy it
from the migration buffer, or attach it to the read in flight. -/
inductive Outcome where
  | sent (tier : Tier) (addr : Nat) (accepted : Bool)
  | buffered
  | deferred
  deriving DecidableEq

/-- Insertion into a `set` of callers kept as a list. -/
def setInsert (s : List Nat) (x : Nat) : List Nat :=
  if x ∈ s then s else x :: s

/-- Index of the first block in state BUFFERED, or -1 when there is none. -/
def nextBuffered (blocks : List BlockEntry) : Int :=
  match blocks.findIdx? (fun b => b.state == .BUFFERED) with
  | some i => (i : Int)
  | none => -1

/-- Index of the block whose read in flight carries the given request. -/
def findReading (blocks : List BlockEntry) (request : Nat) : Option Nat :=
  blocks.findIdx? (fun b => b.state == .READING && b.request == some request)

/-- Whether some block of the list still has a request in flight. -/
def hasOutstanding (blocks : List BlockEntry) : Bool :=
  blocks.any (fun b => b.request.isSome)

/-- Effect of a rollback on one block: a buffered block is discarded. -/
def discardBuffered (b : BlockEntry) : BlockEntry :=
  if b.state = .BUFFERED then { b with state := .NOT_READ, dirty := false } else b

namespace HybridMemory

/-- Modelled from the spec: `HybridMemory::accessNextLevel` (declared in
HybridMemory.H, body not among the sources). Sections 4.5.1 and 4.5.3: the
request goes to the tier that owns its address (below `pcm_offset` DRAM, at
or above PCM); an accepted request is registered in `callbacks`, a rejected
one puts the caller in the stalled set of that tier. The answer of the
tier is `accepts`. -/
def accessNextLevel (hm : HybridMemory) (now : Nat) (request : MemoryRequest)
    (caller callbackAddr : Nat) (partOfMigration : Bool) (page : Nat)
    (accepts : Tier → Bool) : Outcome × HybridMemory :=
  let tier := hm.tierOf request.addr
  if accepts tier then
    (.sent tier request.addr true,
      { hm with
        callbacks := tableEmplace hm.callbacks request.handle
          (CallbackEntry.new caller callbackAddr partOfMigration page now) })
  else
    match tier with
    | .DRAM =>
      (.sent tier request.addr false,
        { hm with dramStalledCallers := setInsert hm.dramStalledCallers caller })
    | .PCM =>
      (.sent tier request.addr false,
        { hm with pcmStalledCallers := setInsert hm.pcmStalledCallers caller })

/-- Modelled from the spec: `HybridMemory::access` (body not among the
sources), section 4.5.1. The page and block of the address are computed; a
page with an active migration entry is served by the state of its block
(WRITTEN: the destination under the rewritten address; BUFFERED: the buffer,
a write marks the block dirty and the caller is queued for notification;
READING: the caller is attached to the block; NOT_READ: the source, as
without migration); a page with no entry, or with a rolled-back one, goes to
the tier that owns the address. -/
def access (hm : HybridMemory) (now : Nat) (request : MemoryRequest) (caller : Nat)
    (accepts : Tier → Bool) : Outcome × HybridMemory :=
  let page := hm.pageOf request.addr
  let block := hm.blockOf request.addr
  match tableFind hm.migrations page with
  | none => hm.accessNextLevel now request caller request.addr false 0 accepts
  | some m =>
    if m.rolledBack then
      hm.accessNextLevel now request caller request.addr false 0 accepts
    else
      match m.blocks[block]? with
      | none => hm.accessNextLevel now request caller request.addr false 0 accepts
      | some b =>
        match b.state with
        | .WRITTEN =>
          let destAddr := (m.destPage <<< log2 hm.pageSize) + request.addr % hm.pageSize
          hm.accessNextLevel now { request with addr := destAddr } caller request.addr false
            page accepts
        | .BUFFERED =>
          let b1 := if request.isWrite then { b with dirty := true } else b
          (.buffered,
            { hm with
              migrations := tableSet hm.migrations page { m with blocks := m.blocks.set block b1 }
              notifications := hm.notifications ++ [{ request := request.handle, callback := caller }] })
        | .READING =>
          let b1 := { b with callers := b.callers ++ [{ request := request.handle, callback := caller }] }
          (.deferred,
            { hm with
              migrations := tableSet hm.migrations page { m with blocks := m.blocks.set block b1 } })
        | .NOT_READ => hm.accessNextLevel now request caller request.addr false 0 accepts

/-- Modelled from the spec: `HybridMemory::copyPage` (body not among the
sources), sections 4.5.2 and 7. The double migration of a page, a source page
that already has an entry in the table, is fatal; the specification gives
`copy_page` no other check. The entry is built by the `MigrationEntry`
constructor with `blocks_per_page` blocks left, source and destination tiers
`tier_of(src_page)` and `tier_of(dest_page)`, and is given its vector of
`blocks_per_page` fresh block entries. -/
def copyPage (hm : HybridMemory) (now srcPage destPage : Nat) : Option HybridMemory :=
  match tableFind hm.migrations srcPage with
  | some _ => none
  | none =>
    let src := hm.tierOfPage srcPage
    let dest := hm.tierOfPage destPage
    let entry := MigrationEntry.new destPage src dest (hm.readDelayOf src) (hm.writeDelayOf dest)
      hm.blocksPerPage now
    let entry := { entry with blocks := List.replicate hm.blocksPerPage BlockEntry.new }
    some { hm with migrations := (srcPage, entry) :: hm.migrations }

/-- Modelled from the spec: the READ (and COPY) event of
`HybridMemory::process` (body not among the sources), section 4.5.2: the
read of the block `next_read_block` of a migration that is not rolled back is
sent to the source under a fresh request; the block goes from NOT_READ to
READING and the reads go round-robin over the blocks. -/
def processRead (hm : HybridMemory) (now page request : Nat) : Option HybridMemory :=
  match tableFind hm.migrations page with
  | none => none
  | some m =>
    if m.rolledBack || decide (m.nextReadBlock < 0)
        || (tableFind hm.callbacks request).isSome then
      none
    else
      match m.blocks[m.nextReadBlock.toNat]? with
      | none => none
      | some b =>
        if b.state = .NOT_READ then
          let b1 := { b with state := .READING, request := some request, startTime := now }
          let m1 :=
            { m with
              blocks := m.blocks.set m.nextReadBlock.toNat b1
              nextReadBlock := (m.nextReadBlock + 1) % (m.blocks.length : Int) }
          some
            { hm with
              migrations := tableSet hm.migrations page m1
              callbacks := tableEmplace hm.callbacks request
                (CallbackEntry.new 0 0 true page now) }
        else
          none

/-- Modelled from the spec: the WRITE event of `HybridMemory::process` (body
not among the sources), section 4.5.2: the block `next_write_block` of a
migration that is not rolled back is written to the destination; it goes from
BUFFERED to WRITTEN, `blocks_left_to_write` is decremented and the next
buffered block, in order of block index, becomes the next to write. -/
def processWrite (hm : HybridMemory) (now page request : Nat) : Option HybridMemory :=
  match tableFind hm.migrations page with
  | none => none
  | some m =>
    if m.rolledBack || decide (m.nextWriteBlock < 0)
        || (tableFind hm.callbacks request).isSome then
      none
    else
      match m.blocks[m.nextWriteBlock.toNat]? with
      | none => none
      | some b =>
        if b.state = .BUFFERED then
          let blocks1 := m.blocks.set m.nextWriteBlock.toNat { b with state := .WRITTEN }
          let m1 :=
            { m with
              blocks := blocks1
              blocksLeftToWrite := m.blocksLeftToWrite - 1
              lastWrite := now
              nextWriteBlock := nextBuffered blocks1 }
          some
            { hm with
              migrations := tableSet hm.migrations page m1
              callbacks := tableEmplace hm.callbacks request
                (CallbackEntry.new 0 0 true page now) }
        else
          none

/-- Modelled from the spec: the NOTIFY event of `HybridMemory::process`
(body not among the sources): the oldest pending notification is delivered. -/
def processNotify (hm : HybridMemory) : Option HybridMemory :=
  match hm.notifications with
  | [] => none
  | _ :: rest => some { hm with notifications := rest }

/-- Modelled from the spec: `HybridMemory::accessCompleted` (body not among
the sources), section 4.5.2. The callback entry of the request is removed.
A request that is not part of a migration is answered to its caller. A
returning migration read takes its block from READING to BUFFERED,
decrements `blocks_left_to_read`, releases the deferred callers and offers
the block for writing; on a rolled-back entry the return only decrements the
counter and releases the callers, and the entry is erased once no read is
outstanding. A completed migration write changes no block. -/
def accessCompleted (hm : HybridMemory) (request : Nat) : Option HybridMemory :=
  match tableFind hm.callbacks request with
  | none => none
  | some cb =>
    let hm1 := { hm with callbacks := tableErase hm.callbacks request }
    if cb.partOfMigration then
      match tableFind hm1.migrations cb.page with
      | none => some hm1
      | some m =>
        match findReading m.blocks request with
        | none => some hm1
        | some i =>
          match m.blocks[i]? with
          | none => some hm1
          | some b =>
            if m.rolledBack then
              let blocks1 := m.blocks.set i { b with request := none, callers := [] }
              let m1 := { m with blocks := blocks1, blocksLeftToRead := m.blocksLeftToRead - 1 }
              if hasOutstanding blocks1 then
                some
                  { hm1 with
                    migrations := tableSet hm1.migrations cb.page m1
                    notifications := hm1.notifications ++ b.callers }
              else
                some
                  { hm1 with
                    migrations := tableErase hm1.migrations cb.page
                    rolledBackMigrations := tableErase hm1.rolledBackMigrations cb.page
                    notifications := hm1.notifications ++ b.callers }
            else
              let b1 := { b with state := .BUFFERED, request := none, callers := [] }
              let m1 :=
                { m with
                  blocks := m.blocks.set i b1
                  blocksLeftToRead := m.blocksLeftToRead - 1
                  nextWriteBlock := if m.nextWriteBlock = -1 then (i : Int) else m.nextWriteBlock }
              some
                { hm1 with
                  migrations := tableSet hm1.migrations cb.page m1
                  notifications := hm1.notifications ++ b.callers }
    else
      some hm1

/-- Modelled from the spec: `HybridMemory::complete` (body not among the
sources), section 4.5.2: allowed when `completion_threshold` is positive and
`blocks_left_to_write` is at most the threshold. The flip of the remaining
routing that the specification gives it is recorded in no member that
HybridMemory.H declares, and the block states stay as they are (scenario 5 of
section 8 still finds the last block BUFFERED after the flip), so the step
leaves the state modelled here unchanged. -/
def complete (hm : HybridMemory) (srcPage : Nat) : Option HybridMemory :=
  match tableFind hm.migrations srcPage with
  | none => none
  | some m =>
    if !m.rolledBack && decide (0 < hm.completionThreshold)
        && decide (m.blocksLeftToWrite ≤ hm.completionThreshold) then
      some hm
    else
      none

/-- Modelled from the spec: `HybridMemory::rollback` (body not among the
sources), sections 3, 4.5.2 and 9: possible before `blocks_left_to_write`
reaches 0; the entry is marked rolled back, no further write is issued,
buffered blocks are discarded, and the page is recorded in the rolled-back
table until the outstanding reads have drained; with no read outstanding the
entry is erased at once. -/
def rollback (hm : HybridMemory) (srcPage : Nat) : Option HybridMemory :=
  match tableFind hm.migrations srcPage with
  | none => none
  | some m =>
    if m.rolledBack || decide (m.blocksLeftToWrite = 0) then
      none
    else
      let m1 :=
        { m with
          rolledBack := true
          nextWriteBlock := -1
          blocks := m.blocks.map discardBuffered }
      if hasOutstanding m1.blocks then
        some
          { hm with
            migrations := tableSet hm.migrations srcPage m1
            rolledBackMigrations := tableEmplace hm.rolledBackMigrations srcPage m.destPage }
      else
        some { hm with migrations := tableErase hm.migrations srcPage }

/-- Modelled from the spec: `HybridMemory::finishMigration` (body not among
the sources), section 8: at termination every block is written
(`blocks_left_to_write` is 0) and the entry leaves the table. -/
def finishMigration (hm : HybridMemory) (srcPage : Nat) : Option HybridMemory :=
  match tableFind hm.migrations srcPage with
  | none => none
  | some m =>
    if !m.rolledBack && decide (m.blocksLeftToWrite = 0) then
      some { hm with migrations := tableErase hm.migrations srcPage }
    else
      none

end HybridMemory

/-- The operations of the hybrid controller: its public methods and the
events it handles. -/
inductive Op where
  | access (now : Nat) (request : MemoryRequest) (caller : Nat) (dramAccepts pcmAccepts : Bool)
  | accessCompleted (request : Nat)
  | copyPage (now srcPage destPage : Nat)
  | finishMigration (srcPage : Nat)
  | complete (srcPage : Nat)
  | rollback (srcPage : Nat)
  | processRead (now page request : Nat)
  | processWrite (now page request : Nat)
  | processNotify
  deriving DecidableEq

/-- The answers of the two tiers as a function of the tier. -/
def acceptsOf (dramAccepts pcmAccepts : Bool) : Tier → Bool
  | .DRAM => dramAccepts
  | .PCM => pcmAccepts

/-- One step of the controller; `none` is a fatal error or an operation that
is not possible in the state. -/
def HybridMemory.step (hm : HybridMemory) : Op → Option HybridMemory
  | .access now request caller dramAccepts pcmAccepts =>
    some (hm.access now request caller (acceptsOf dramAccepts pcmAccepts)).2
  | .accessCompleted request => hm.accessCompleted request
  | .copyPage now srcPage destPage => hm.copyPage now srcPage destPage
  | .finishMigration srcPage => hm.finishMigration srcPage
  | .complete srcPage => hm.complete srcPage
  | .rollback srcPage => hm.rollback srcPage
  | .processRead now page request => hm.processRead now page request
  | .processWrite now page request => hm.processWrite now page request
  | .processNotify => hm.processNotify

/-- The states the controller can be in: what its constructor builds and
what a step makes of a reachable state. -/
inductive Reachable : HybridMemory → Prop where
  | create {hm : HybridMemory} (blockSize pageSize dramRead dramWrite pcmRead pcmWrite
      threshold pcmOffset : Nat)
      (h : HybridMemory.create blockSize pageSize dramRead dramWrite pcmRead pcmWrite threshold
        pcmOffset = some hm) : Reachable hm
  | step {hm next : HybridMemory} (op : Op) (h : Reachable hm) (hstep : hm.step op = some next) :
      Reachable next

/-- The source pages of a migration table. -/
def sourcePages (table : List (Nat × MigrationEntry)) : List Nat :=
  table.map (fun kv => kv.1)

/-- No block moves to an earlier state of the `BlockState` order. -/
def BlocksForward (before after : List BlockEntry) : Prop :=
  ∀ (i : Nat) (b c : BlockEntry),
    before[i]? = some b → after[i]? = some c → b.state.toNat ≤ c.state.toNat

/-- Every block that was in state WRITTEN still is. -/
def WrittenKept (before after : List BlockEntry) : Prop :=
  ∀ (i : Nat) (b c : BlockEntry),
    before[i]? = some b → after[i]? = some c → b.state = .WRITTEN → c.state = .WRITTEN

/-- The step rolls the entry back: it was not rolled back, it is now, and it
had blocks left to write, as many as it still has. -/
def RolledBackNow (before after : MigrationEntry) : Prop :=
  before.rolledBack = false ∧ after.rolledBack = true ∧ 0 < before.blocksLeftToWrite
    ∧ after.blocksLeftToWrite = before.blocksLeftToWrite

/-- The source and destination page of the entry an operation adds to the
migration table: those of `copyPage`, none for any other operation. -/
def copyOf : Op → Option (Nat × Nat)
  | .copyPage _ srcPage destPage => some (srcPage, destPage)
  | _ => none

/-- How one step changes the migration table of a controller with `n` blocks
per page: not at all; by replacing the entry of a source page with one of the
same destination and as many blocks, whose blocks have only moved forward
unless the step rolls the entry back, and whose written blocks are still
written; by erasing a source page; or by adding an entry of `n` blocks for a
source page that had none. The index tells the source and destination page of
an added entry. -/
inductive TableStep (n : Nat) (table : List (Nat × MigrationEntry)) :
    Option (Nat × Nat) → List (Nat × MigrationEntry) → Prop where
  | same : TableStep n table none table
  | update (page : Nat) (m m1 : MigrationEntry) (hfind : tableFind table page = some m)
      (hdest : m1.destPage = m.destPage) (hlen : m1.blocks.length = m.blocks.length)
      (hfwd : BlocksForward m.blocks m1.blocks ∨ RolledBackNow m m1)
      (hkept : WrittenKept m.blocks m1.blocks) :
      TableStep n table none (tableSet table page m1)
  | erase (page : Nat) : TableStep n table none (tableErase table page)
  | insert (page : Nat) (e : MigrationEntry) (hsrc : page ∉ sourcePages table)
      (hlen : e.blocks.length = n) :
      TableStep n table (some (page, e.destPage)) ((page, e) :: table)

/-- What holds of the migration table of a controller with `n` blocks per
page in every state: one entry per source page and `n` block entries in every
entry. -/
def TableInv (n : Nat) (table : List (Nat × MigrationEntry)) : Prop :=
  (sourcePages table).Nodup ∧ ∀ kv ∈ table, kv.2.blocks.length = n

/-- The controller built for 64-byte blocks, 256-byte pages (four blocks per
page), migration delays 1, 2, 3, 4, completion threshold 1 and PCM starting
at address 1024. -/
def demoStart : HybridMemory :=
  { blockSize := 64
    pageSize := 256
    blocksPerPage := 4
    dramMigrationReadDelay := 1
    dramMigrationWriteDelay := 2
    pcmMigrationReadDelay := 3
    pcmMigrationWriteDelay := 4
    completionThreshold := 1
    pcmOffset := 1024
    migrations := []
    rolledBackMigrations := []
    callbacks := []
    dramStalledCallers := []
    pcmStalledCallers := []
    notifications := [] }

/-- The entry of a migration of page 0 (DRAM) to page 4 (PCM) started at
time 0 in `demoStart`. -/
def demoEntry : MigrationEntry :=
  { MigrationEntry.new 4 .DRAM .PCM 1 4 4 0 with blocks := List.replicate 4 BlockEntry.new }

/-- A block whose read has been sent at time 1 under request 100. -/
def demoBlockReading : BlockEntry :=
  { BlockEntry.new with state := .READING, request := some 100, startTime := 1 }

/-- The same entry once the read of block 0 has been sent at time 1 under
request 100. -/
def demoEntryReading : MigrationEntry :=
  { demoEntry with
    blocks := demoEntry.blocks.set 0 demoBlockReading
    nextReadBlock := 1 }

/-- The controller `demoStart` after `copyPage` of page 0 to page 4. -/
def demoCopying : HybridMemory :=
  { demoStart with migrations := [(0, demoEntry)] }

/-- The controller `demoCopying` after the first read has been issued. -/
def demoReading : HybridMemory :=
  { demoCopying with
    migrations := [(0, demoEntryReading)]
    callbacks := [(100, CallbackEntry.new 0 0 true 0 1)] }

/-- A foreground read of address 100 by process 0. -/
def demoRequest : MemoryRequest :=
  { handle := 7, addr := 100, isWrite := false, priority := 0, pid := 0 }

/-! ## Bank.H: the dirty columns and the queued requests of a bank -/

/-- The number of positions of the member `bitset<64> dirtyColumns` of class
`Bank`: a position is valid when it is below this number. -/
def dirtyColumnsSize : Nat := 64

/-- The struct `Bank::RequestAndTime`; `request` is `none` for the null
pointer. -/
structure RequestAndTime where
  request : Option Nat
  enqueueTimestamp : Nat
  dequeueTimestamp : Nat
  startWaitingTimestamp : Nat
  waitingOnLowerPriority : Bool
  waitingOnSamePriority : Bool
  waitingOnHigherPriority : Bool
  deriving DecidableEq

/-- The default constructor `RequestAndTime ()`: `request(0)`, the three
timestamps 0 and the three flags false. -/
def RequestAndTime.default : RequestAndTime :=
  { request := none
    enqueueTimestamp := 0
    dequeueTimestamp := 0
    startWaitingTimestamp := 0
    waitingOnLowerPriority := false
    waitingOnSamePriority := false
    waitingOnHigherPriority := false }

/-- The constructor `RequestAndTime (MemoryRequest *requestArg, uint64
enqueueTimestampArg)`; a null `requestArg` is `none`. -/
def RequestAndTime.new (requestArg : Option Nat) (enqueueTimestampArg : Nat) : RequestAndTime :=
  { request := requestArg
    enqueueTimestamp := enqueueTimestampArg
    dequeueTimestamp := 0
    startWaitingTimestamp := enqueueTimestampArg
    waitingOnLowerPriority := false
    waitingOnSamePriority := false
    waitingOnHigherPriority := false }

/-! ## Arguments.H: arguments of the command line -/

/-- The data members of class `ArgumentBase`; a `string` is a list of
characters. -/
structure ArgumentBase where
  _name : List Char
  _desc : List Char
  _req : Bool
  _file : Bool
  _flag : Bool
  _set : Bool
  deriving DecidableEq

/-- The constructor `ArgumentBase(name, desc, req, file, flag)`, which ends
with `_set(false)`. -/
def ArgumentBase.new (name desc : List Char) (req file flag : Bool) : ArgumentBase :=
  { _name := name, _desc := desc, _req := req, _file := file, _flag := flag, _set := false }

/-- The data members of the class template `Argument<T>`, which derives from
`ArgumentBase`. -/
structure Argument (T : Type) extends ArgumentBase where
  _value : T
  _defaultValue : T

namespace Argument

/-- The protected constructor `Argument(name, desc, defaultValue, req, file,
flag)`: `ArgumentBase(name, desc, req, file, flag), _value(defaultValue),
_defaultValue(defaultValue)`. -/
def new {T : Type} (name desc : List Char) (defaultValue : T) (req file flag : Bool) :
    Argument T :=
  { toArgumentBase := ArgumentBase.new name desc req file flag
    _value := defaultValue
    _defaultValue := defaultValue }

/-- Source: `string getName() {return _name;}` -/
def getName {T : Type} (a : Argument T) : List Char := a._name

/-- Source: `string getDesc() {return _desc;}` -/
def getDesc {T : Type} (a : Argument T) : List Char := a._desc

/-- Source: `bool isReq() {return _req;}` -/
def isReq {T : Type} (a : Argument T) : Bool := a._req

/-- Source: `bool isFile() {return _file;}` -/
def isFile {T : Type} (a : Argument T) : Bool := a._file

/-- Source: `bool isFlag() {return _flag;}` -/
def isFlag {T : Type} (a : Argument T) : Bool := a._flag

/-- Source: `bool isSet() {return _set;}` -/
def isSet {T : Type} (a : Argument T) : Bool := a._set

/-- Source: `T getValue() const {return _value;}` -/
def getValue {T : Type} (a : Argument T) : T := a._value

/-- Source: `T getDefaultValue() const {return _defaultValue;}` -/
def getDefaultValue {T : Type} (a : Argument T) : T := a._defaultValue

/-- Source: `void setValue(T value) {_value = value;}` -/
def setValue {T : Type} (a : Argument T) (value : T) : Argument T :=
  { a with _value := value }

/-- The member `parseValue`: `istringstream iss(val); iss >> _value;
_set = true;`. The extraction operator of the type `T` is the parameter
`extract`: given the text of the stream and the value held so far it returns
the value held after `iss >> _value`. -/
def parseValue {T : Type} (extract : List Char → T → T) (a : Argument T) (val : List Char) :
    Argument T :=
  { a with _value := extract val a._value, _set := true }

end Argument

/-- The white-space characters of the classic locale, which formatted input
skips and at which the extraction of a `string` stops: space, `\t`, `\n`,
`\v`, `\f` and `\r`. -/
def isSpace (c : Char) : Bool :=
  c.toNat == 32 || (decide (9 ≤ c.toNat) && decide (c.toNat ≤ 13))

/-- The word that `stream >> string` reads from a text: leading white space is
skipped and the characters up to the next white space are taken; `none` when
nothing but white space is left. -/
def firstWord (text : List Char) : Option (List Char) :=
  match text.dropWhile isSpace with
  | [] => none
  | c :: rest => some ((c :: rest).takeWhile (fun x => !isSpace x))

/-- The extraction operator `>>` of `std::string` on a fresh stream over
`text`: the word read replaces the value; when there is no word the
extraction fails and the value stays as it was. -/
def extractString (text : List Char) (old : List Char) : List Char :=
  match firstWord text with
  | none => old
  | some word => word

/-- The constructor of `OptionalArgument<T>`: `Argument<T>(name, desc,
defaultValue, false, file, flag)`, then `cont->insertOptionalArgument(name,
this)`. The registration with the container (Arguments.cpp is not among the
sources) is the parameter `insertOptionalArgument`; it is given the argument
as constructed. The source lets the caller leave out `file` (then true) and
`flag` (then false). The result is the argument and the container. -/
def OptionalArgument.new {C T : Type}
    (insertOptionalArgument : C → List Char → Argument T → C)
    (cont : C) (name desc : List Char) (defaultValue : T) (file flag : Bool) :
    Argument T × C :=
  let this := Argument.new name desc defaultValue false file flag
  (this, insertOptionalArgument cont name this)

/-- The constructor of `PositionalArgument<T>`: `Argument<T>(name, desc,
defaultValue, req, false, false)`, then `cont->insertPositionalArgument(this)`.
The registration with the container (Arguments.cpp is not among the sources)
is the parameter `insertPositionalArgument`. The source lets the caller leave
out `req` (then true). The result is the argument and the container. -/
def PositionalArgument.new {C T : Type}
    (insertPositionalArgument : C → Argument T → C)
    (cont : C) (name desc : List Char) (defaultValue : T) (req : Bool) :
    Argument T × C :=
  let this := Argument.new name desc defaultValue req false false
  (this, insertPositionalArgument cont this)

/-- The two members of `Argument<T>` that change an argument. -/
inductive ArgumentOp (T : Type) where
  | parseValue (val : List Char)
  | setValue (value : T)

/-- An argument after a sequence of calls of `parseValue` and `setValue`. -/
def Argument.apply {T : Type} (extract : List Char → T → T) (a : Argument T) :
    List (ArgumentOp T) → Argument T
  | [] => a
  | .parseValue val :: rest => Argument.apply extract (a.parseValue extract val) rest
  | .setValue value :: rest => Argument.apply extract (a.setValue value) rest

/-! # Properties -/

/-! ## Arithmetic of sizes, widths and masks -/

theorem log2Loop_two_pow (k : Nat) : ∀ fuel, k < fuel → log2Loop fuel (2 ^ k) = k := by
  induction k with
  | zero =>
    intro fuel h
    cases fuel with
    | zero => omega
    | succ f => simp [log2Loop]
  | succ k ih =>
    intro fuel h
    cases fuel with
    | zero => omega
    | succ f =>
      have h2 : ¬ (2 ^ (k + 1) < 2) := by
        have : 0 < 2 ^ k := Nat.pos_pow_of_pos k (by decide)
        rw [Nat.pow_succ]; omega
      have h3 : 2 ^ (k + 1) / 2 = 2 ^ k := by
        rw [Nat.pow_succ]; exact Nat.mul_div_cancel _ (by decide)
      simp only [log2Loop, h2, if_false, h3]
      rw [ih f (by omega)]

theorem log2_two_pow (k : Nat) : log2 (2 ^ k) = k :=
  log2Loop_two_pow k (2 ^ k) (Nat.lt_two_pow k)

theorem isPowerOfTwo_iff (n : Nat) : isPowerOfTwo n = true ↔ ∃ k, n = 2 ^ k := by
  constructor
  · intro h
    have h2 : 2 ^ log2 n = n := by simpa [isPowerOfTwo] using h
    exact ⟨log2 n, h2.symm⟩
  · rintro ⟨k, rfl⟩
    simp [isPowerOfTwo, log2_two_pow]

theorem create_eq_layout (t : MappingType) (nr bk rw cl bs : Nat)
    (h1 : isPowerOfTwo nr = true) (h2 : isPowerOfTwo bk = true) (h3 : isPowerOfTwo rw = true)
    (h4 : isPowerOfTwo cl = true) (h5 : isPowerOfTwo bs = true) :
    MemoryMapping.create t nr bk rw cl bs = some (MemoryMapping.layout t nr bk rw cl bs) := by
  simp [MemoryMapping.create, h1, h2, h3, h4, h5]

theorem testBit_false_of_lt {x i n : Nat} (hx : x < 2 ^ n) (hi : n ≤ i) :
    x.testBit i = false :=
  Nat.testBit_lt_two_pow (lt_of_lt_of_le hx (Nat.pow_le_pow_right (by decide) hi))

theorem fieldMask_testBit (w off i : Nat) :
    (fieldMask w off).testBit i = (decide (i < 64) && (decide (off ≤ i) && decide (i < off + w))) := by
  simp only [fieldMask, addrBits, Nat.testBit_mod_two_pow, Nat.testBit_shiftLeft,
    Nat.testBit_two_pow_sub_one]
  by_cases h1 : i < 64 <;> by_cases h2 : off ≤ i <;> by_cases h3 : i < off + w <;>
    simp [h1, h2, h3] <;> omega

/-- Bits of an extracted index. -/
theorem extract_testBit (addr w off j : Nat) :
    ((addr &&& fieldMask w off) >>> off).testBit j =
      (addr.testBit (off + j) && (decide (off + j < 64) && decide (j < w))) := by
  simp only [Nat.testBit_shiftRight, Nat.testBit_and, fieldMask_testBit]
  by_cases h1 : off + j < 64 <;> by_cases h3 : j < w <;> simp [h1, h3]

/-- An extracted index is the slice of the address: shift right, keep `w` bits. -/
theorem extract_eq (addr w off : Nat) (ha : addr < 2 ^ 64) :
    (addr &&& fieldMask w off) >>> off = (addr >>> off) % 2 ^ w := by
  apply Nat.eq_of_testBit_eq
  intro j
  rw [extract_testBit, Nat.testBit_mod_two_pow, Nat.testBit_shiftRight]
  by_cases h1 : off + j < 64
  · by_cases h3 : j < w <;> simp [h1, h3]
  · have : addr.testBit (off + j) = false := testBit_false_of_lt ha (by omega)
    simp [this]

/-- Putting an extracted index back at its offset keeps exactly the bits of
the field. -/
theorem restore_testBit (addr w off i : Nat) :
    (((addr &&& fieldMask w off) >>> off) <<< off).testBit i =
      (addr.testBit i && (decide (i < 64) && (decide (off ≤ i) && decide (i < off + w)))) := by
  rw [Nat.testBit_shiftLeft, extract_testBit]
  by_cases h2 : off ≤ i
  · have e : off + (i - off) = i := by omega
    rw [e]
    by_cases h1 : i < 64 <;> by_cases h3 : i < off + w <;> simp [h1, h2, h3] <;> omega
  · simp [h2]

theorem two_pow_mul5 (a b c d e : Nat) :
    2 ^ a * 2 ^ b * 2 ^ c * 2 ^ d * 2 ^ e = 2 ^ (a + b + c + d + e) := by
  simp [Nat.pow_add]

theorem layout_reassemble (t : MappingType) (a b c d e addr : Nat)
    (haddr : addr < 2 ^ 64) (htotal : addr < 2 ^ (a + b + c + d + e)) :
    (MemoryMapping.layout t (2 ^ a) (2 ^ b) (2 ^ c) (2 ^ d) (2 ^ e)).reassemble
      ((MemoryMapping.layout t (2 ^ a) (2 ^ b) (2 ^ c) (2 ^ d) (2 ^ e)).decompose addr) = addr := by
  apply Nat.eq_of_testBit_eq
  intro i
  simp only [MemoryMapping.reassemble, MemoryMapping.decompose, MemoryMapping.getRankIndex,
    MemoryMapping.getBankIndex, MemoryMapping.getRowIndex, MemoryMapping.getColumnIndex,
    MemoryMapping.getBlockIndex, MemoryMapping.layout, log2_two_pow, Nat.testBit_or,
    restore_testBit]
  cases hb : addr.testBit i with
  | false => simp
  | true =>
    have h64 : i < 64 := by
      by_contra hc
      rw [testBit_false_of_lt haddr (by omega)] at hb
      exact Bool.noConfusion hb
    have htot : i < a + b + c + d + e := by
      by_contra hc
      rw [testBit_false_of_lt htotal (by omega)] at hb
      exact Bool.noConfusion hb
    cases t <;> simp [h64] <;> omega

/-! ## Address mapping -/

/-- C1: for every mapping type, every configuration whose five sizes are
powers of two and every address below the total size, the constructor
succeeds and decomposing the address with the five index getters and
reassembling (each index shifted left by its field offset, then OR-ed)
gives the address back. -/
theorem decompose_reassemble_roundtrip (t : MappingType)
    (numRanks banksPerRank rowsPerBank blocksPerRow blockSize addr : Nat)
    (h1 : isPowerOfTwo numRanks = true) (h2 : isPowerOfTwo banksPerRank = true)
    (h3 : isPowerOfTwo rowsPerBank = true) (h4 : isPowerOfTwo blocksPerRow = true)
    (h5 : isPowerOfTwo blockSize = true)
    (haddr : addr < 2 ^ addrBits)
    (htotal : addr < numRanks * banksPerRank * rowsPerBank * blocksPerRow * blockSize) :
    ∃ m, MemoryMapping.create t numRanks banksPerRank rowsPerBank blocksPerRow blockSize = some m
      ∧ m.reassemble (m.decompose addr) = addr := by
  refine ⟨_, create_eq_layout t _ _ _ _ _ h1 h2 h3 h4 h5, ?_⟩
  obtain ⟨a, rfl⟩ := (isPowerOfTwo_iff _).1 h1
  obtain ⟨b, rfl⟩ := (isPowerOfTwo_iff _).1 h2
  obtain ⟨c, rfl⟩ := (isPowerOfTwo_iff _).1 h3
  obtain ⟨d, rfl⟩ := (isPowerOfTwo_iff _).1 h4
  obtain ⟨e, rfl⟩ := (isPowerOfTwo_iff _).1 h5
  rw [two_pow_mul5] at htotal
  exact layout_reassemble t a b c d e addr haddr htotal

theorem decompose_reassemble_roundtrip_witness :
    ∃ m, MemoryMapping.create .ROW_COL_RANK_BANK 2 8 16384 64 64 = some m
      ∧ m.reassemble (m.decompose 305419896) = 305419896 :=
  decompose_reassemble_roundtrip .ROW_COL_RANK_BANK 2 8 16384 64 64 305419896
    (by decide) (by decide) (by decide) (by decide) (by decide) (by decide) (by decide)

/-- The rank-shifted-or-bank value has no bit at or above the two widths. -/
theorem bankId_value_lt (addr a off bw boff : Nat) :
    ((((addr &&& fieldMask a off) >>> off) <<< bw) ||| ((addr &&& fieldMask bw boff) >>> boff))
      < 2 ^ (a + bw) := by
  apply Nat.lt_pow_two_of_testBit
  intro i hi
  rw [Nat.testBit_or, Nat.testBit_shiftLeft, extract_testBit, extract_testBit]
  have e1 : decide (i - bw < a) = false := by simp; omega
  have e2 : decide (i < bw) = false := by simp; omega
  simp [e1, e2]

theorem mod_or_mod (x y : Nat) :
    ((x % 2 ^ 64) ||| y) % 2 ^ 32 = (x ||| y) % 2 ^ 32 := by
  apply Nat.eq_of_testBit_eq
  intro i
  simp only [Nat.testBit_mod_two_pow, Nat.testBit_or]
  by_cases h : i < 32
  · have : i < 64 := by omega
    simp [h, this]
  · simp [h]

/-- C2 (counterexample): with 2^31 ranks of 4 banks the constructor succeeds,
and at address 2^32 (rank index 2^30, bank index 0) getBankId returns 0 while
(rank_index << log2(banks_per_rank)) | bank_index is 2^32. -/
theorem getBankId_narrowed_counterexample :
    MemoryMapping.create .ROW_RANK_BANK_COL 2147483648 4 1 1 1
        = some (MemoryMapping.layout .ROW_RANK_BANK_COL 2147483648 4 1 1 1)
      ∧ (MemoryMapping.layout .ROW_RANK_BANK_COL 2147483648 4 1 1 1).getBankId 4294967296 = 0
      ∧ (((MemoryMapping.layout .ROW_RANK_BANK_COL 2147483648 4 1 1 1).getRankIndex 4294967296)
            <<< log2 4)
          ||| (MemoryMapping.layout .ROW_RANK_BANK_COL 2147483648 4 1 1 1).getBankIndex 4294967296
        = 4294967296 := by
  decide

/-- C2 (amended): for every power-of-two configuration and every address,
bankWidth is log2(banksPerRank) and getBankId(addr) is the low 32 bits (its
return type is unsigned) of (rank_index << log2(banks_per_rank)) | bank_index;
when num_ranks * banks_per_rank is at most 2^32 it is that value itself. -/
theorem getBankId_eq_rank_shift_or_bank (t : MappingType)
    (numRanks banksPerRank rowsPerBank blocksPerRow blockSize addr : Nat)
    (h1 : isPowerOfTwo numRanks = true) (h2 : isPowerOfTwo banksPerRank = true)
    (h3 : isPowerOfTwo rowsPerBank = true) (h4 : isPowerOfTwo blocksPerRow = true)
    (h5 : isPowerOfTwo blockSize = true) :
    ∃ m, MemoryMapping.create t numRanks banksPerRank rowsPerBank blocksPerRow blockSize = some m
      ∧ m.bankWidth = log2 banksPerRank
      ∧ m.getBankId addr
          = (((m.getRankIndex addr) <<< log2 banksPerRank) ||| m.getBankIndex addr)
              % 2 ^ unsignedBits
      ∧ (numRanks * banksPerRank ≤ 2 ^ unsignedBits →
          m.getBankId addr
            = ((m.getRankIndex addr) <<< log2 banksPerRank) ||| m.getBankIndex addr) := by
  refine ⟨_, create_eq_layout t _ _ _ _ _ h1 h2 h3 h4 h5, rfl, ?_, ?_⟩
  · simp only [MemoryMapping.getBankId, addrBits, unsignedBits]
    rw [mod_or_mod]
    rfl
  · intro hfit
    obtain ⟨a, rfl⟩ := (isPowerOfTwo_iff _).1 h1
    obtain ⟨b, rfl⟩ := (isPowerOfTwo_iff _).1 h2
    simp only [MemoryMapping.getBankId, addrBits, unsignedBits]
    rw [mod_or_mod]
    have hlt := bankId_value_lt addr a
      (MemoryMapping.layout t (2 ^ a) (2 ^ b) rowsPerBank blocksPerRow blockSize).rankOffset b
      (MemoryMapping.layout t (2 ^ a) (2 ^ b) rowsPerBank blocksPerRow blockSize).bankOffset
    have hle : 2 ^ (a + b) ≤ 2 ^ 32 := by
      rw [Nat.pow_add]; exact hfit
    have hval : (((MemoryMapping.layout t (2 ^ a) (2 ^ b) rowsPerBank blocksPerRow
        blockSize).getRankIndex addr) <<< log2 (2 ^ b))
        ||| (MemoryMapping.layout t (2 ^ a) (2 ^ b) rowsPerBank blocksPerRow
          blockSize).getBankIndex addr < 2 ^ 32 := by
      simp only [MemoryMapping.getRankIndex, MemoryMapping.getBankIndex, MemoryMapping.layout,
        log2_two_pow] at hlt ⊢
      exact lt_of_lt_of_le hlt hle
    have hbw : (MemoryMapping.layout t (2 ^ a) (2 ^ b) rowsPerBank blocksPerRow
        blockSize).bankWidth = log2 (2 ^ b) := rfl
    rw [hbw]
    exact Nat.mod_eq_of_lt hval

theorem getBankId_eq_rank_shift_or_bank_witness :
    ∃ m, MemoryMapping.create .ROW_RANK_BANK_COL 2 8 16384 64 64 = some m
      ∧ m.bankWidth = log2 8
      ∧ m.getBankId 305419896
          = (((m.getRankIndex 305419896) <<< log2 8) ||| m.getBankIndex 305419896)
              % 2 ^ unsignedBits
      ∧ (2 * 8 ≤ 2 ^ unsignedBits →
          m.getBankId 305419896
            = ((m.getRankIndex 305419896) <<< log2 8) ||| m.getBankIndex 305419896) :=
  getBankId_eq_rank_shift_or_bank .ROW_RANK_BANK_COL 2 8 16384 64 64 305419896
    (by decide) (by decide) (by decide) (by decide) (by decide)

theorem layout_index_eq (t : MappingType) (a b c d e addr : Nat) (haddr : addr < 2 ^ 64)
    (f : Field) :
    (MemoryMapping.layout t (2 ^ a) (2 ^ b) (2 ^ c) (2 ^ d) (2 ^ e)).indexOf f addr
      = (addr / 2 ^ (MemoryMapping.layout t (2 ^ a) (2 ^ b) (2 ^ c) (2 ^ d) (2 ^ e)).offsetOf f)
          % (MemoryMapping.layout t (2 ^ a) (2 ^ b) (2 ^ c) (2 ^ d) (2 ^ e)).sizeOf f := by
  cases f <;>
    simp only [MemoryMapping.indexOf, MemoryMapping.offsetOf, MemoryMapping.sizeOf,
      MemoryMapping.getRankIndex, MemoryMapping.getBankIndex, MemoryMapping.getRowIndex,
      MemoryMapping.getColumnIndex, MemoryMapping.getBlockIndex, MemoryMapping.layout,
      log2_two_pow, extract_eq _ _ _ haddr, Nat.shiftRight_eq_div_pow]

/-- C3: for each of the three mapping types and every power-of-two
configuration the constructor succeeds and lays the five fields out in the
order of the table: every width is log2 of the field size, every field starts
at the bit where the fields below it in the table end (so the ranges are
adjacent, disjoint and start at bit 0), every index getter returns exactly
the bits of its range, and the block index is the lowest log2(block_size)
bits of the address. -/
theorem layout_follows_table (t : MappingType)
    (numRanks banksPerRank rowsPerBank blocksPerRow blockSize : Nat)
    (h1 : isPowerOfTwo numRanks = true) (h2 : isPowerOfTwo banksPerRank = true)
    (h3 : isPowerOfTwo rowsPerBank = true) (h4 : isPowerOfTwo blocksPerRow = true)
    (h5 : isPowerOfTwo blockSize = true) :
    ∃ m, MemoryMapping.create t numRanks banksPerRank rowsPerBank blocksPerRow blockSize = some m
      ∧ (m.sizeOf .rank = numRanks ∧ m.sizeOf .bank = banksPerRank ∧ m.sizeOf .row = rowsPerBank
          ∧ m.sizeOf .column = blocksPerRow ∧ m.sizeOf .block = blockSize)
      ∧ (∀ f, m.widthOf f = log2 (m.sizeOf f) ∧ 2 ^ m.widthOf f = m.sizeOf f)
      ∧ (∀ f, m.offsetOf f = bitsBelow m.widthOf (tableOrder t) f)
      ∧ (∀ f addr, addr < 2 ^ addrBits →
          m.indexOf f addr = (addr / 2 ^ m.offsetOf f) % 2 ^ m.widthOf f)
      ∧ m.blockOffset = 0
      ∧ (∀ addr, addr < 2 ^ addrBits → m.getBlockIndex addr = addr % 2 ^ log2 blockSize) := by
  refine ⟨_, create_eq_layout t _ _ _ _ _ h1 h2 h3 h4 h5, ⟨rfl, rfl, rfl, rfl, rfl⟩, ?_, ?_, ?_,
    rfl, ?_⟩
  · obtain ⟨a, rfl⟩ := (isPowerOfTwo_iff _).1 h1
    obtain ⟨b, rfl⟩ := (isPowerOfTwo_iff _).1 h2
    obtain ⟨c, rfl⟩ := (isPowerOfTwo_iff _).1 h3
    obtain ⟨d, rfl⟩ := (isPowerOfTwo_iff _).1 h4
    obtain ⟨e, rfl⟩ := (isPowerOfTwo_iff _).1 h5
    intro f
    cases f <;>
      simp [MemoryMapping.widthOf, MemoryMapping.sizeOf, MemoryMapping.layout, log2_two_pow]
  · intro f
    cases t <;> cases f <;>
      simp [MemoryMapping.widthOf, MemoryMapping.offsetOf, MemoryMapping.layout, bitsBelow,
        tableOrder] <;> omega
  · obtain ⟨a, rfl⟩ := (isPowerOfTwo_iff _).1 h1
    obtain ⟨b, rfl⟩ := (isPowerOfTwo_iff _).1 h2
    obtain ⟨c, rfl⟩ := (isPowerOfTwo_iff _).1 h3
    obtain ⟨d, rfl⟩ := (isPowerOfTwo_iff _).1 h4
    obtain ⟨e, rfl⟩ := (isPowerOfTwo_iff _).1 h5
    intro f addr haddr
    rw [layout_index_eq t a b c d e addr haddr f]
    cases f <;> simp [MemoryMapping.widthOf, MemoryMapping.sizeOf, MemoryMapping.layout,
      log2_two_pow]
  · intro addr haddr
    simp only [MemoryMapping.getBlockIndex, MemoryMapping.layout, extract_eq _ _ _ haddr]
    simp

theorem layout_follows_table_witness :
    ∃ m, MemoryMapping.create .RANK_BANK_ROW_COL 2 8 16384 64 64 = some m
      ∧ (m.sizeOf .rank = 2 ∧ m.sizeOf .bank = 8 ∧ m.sizeOf .row = 16384
          ∧ m.sizeOf .column = 64 ∧ m.sizeOf .block = 64)
      ∧ (∀ f, m.widthOf f = log2 (m.sizeOf f) ∧ 2 ^ m.widthOf f = m.sizeOf f)
      ∧ (∀ f, m.offsetOf f = bitsBelow m.widthOf (tableOrder .RANK_BANK_ROW_COL) f)
      ∧ (∀ f addr, addr < 2 ^ addrBits →
          m.indexOf f addr = (addr / 2 ^ m.offsetOf f) % 2 ^ m.widthOf f)
      ∧ m.blockOffset = 0
      ∧ (∀ addr, addr < 2 ^ addrBits → m.getBlockIndex addr = addr % 2 ^ log2 64) :=
  layout_follows_table .RANK_BANK_ROW_COL 2 8 16384 64 64
    (by decide) (by decide) (by decide) (by decide) (by decide)

theorem addrNot_testBit (x i : Nat) (hx : x < 2 ^ 64) :
    (addrNot x).testBit i = (decide (i < 64) && !x.testBit i) := by
  have e : addrNot x = 2 ^ 64 - (x + 1) := by
    simp only [addrNot, addrBits]; omega
  rw [e, Nat.testBit_two_pow_sub_succ hx]

theorem and_not_mask_eq (addr k : Nat) (haddr : addr < 2 ^ 64) :
    addr &&& addrNot (2 ^ k - 1) = addr - addr % 2 ^ k := by
  have hdm : addr - addr % 2 ^ k = (addr >>> k) <<< k := by
    rw [Nat.shiftLeft_eq, Nat.shiftRight_eq_div_pow]
    have := Nat.div_add_mod addr (2 ^ k)
    rw [Nat.mul_comm] at this
    omega
  by_cases hk : k ≤ 64
  · rw [hdm]
    apply Nat.eq_of_testBit_eq
    intro i
    have hm : 2 ^ k - 1 < 2 ^ 64 := by
      have h1 : 2 ^ k ≤ 2 ^ 64 := Nat.pow_le_pow_right (by decide) hk
      have h2 : 0 < 2 ^ k := Nat.pos_pow_of_pos k (by decide)
      omega
    rw [Nat.testBit_and, addrNot_testBit _ _ hm, Nat.testBit_two_pow_sub_one,
      Nat.testBit_shiftLeft, Nat.testBit_shiftRight]
    by_cases h1 : i < 64
    · by_cases h2 : k ≤ i
      · have e : k + (i - k) = i := by omega
        have h3 : ¬ i < k := by omega
        simp [h1, h2, h3, e]
      · have h3 : i < k := by omega
        simp [h1, h2, h3]
    · have : addr.testBit i = false := testBit_false_of_lt haddr (by omega)
      simp [this, h1]
      intro _
      exact testBit_false_of_lt haddr (by omega)
  · have h1 : 2 ^ 64 < 2 ^ k := Nat.pow_lt_pow_right (by decide) (by omega)
    have h2 : addrNot (2 ^ k - 1) = 0 := by
      simp only [addrNot, addrBits]; omega
    have h3 : addr % 2 ^ k = addr := Nat.mod_eq_of_lt (by omega)
    rw [h2, h3]
    simp

/-- C4: for every address and power-of-two block size with
blockMask = blockSize - 1, getBlockAddress(addr) is addr - (addr mod
blockSize): a multiple of the block size, at most addr, and less than one
block below addr. -/
theorem getBlockAddress_aligned (m : MemoryMapping) (addr : Nat)
    (hsize : isPowerOfTwo m.blockSize = true) (hmask : m.blockMask = m.blockSize - 1)
    (haddr : addr < 2 ^ addrBits) :
    m.getBlockAddress addr = addr - addr % m.blockSize
      ∧ m.blockSize ∣ m.getBlockAddress addr
      ∧ m.getBlockAddress addr ≤ addr
      ∧ addr - m.getBlockAddress addr < m.blockSize := by
  obtain ⟨k, hk⟩ := (isPowerOfTwo_iff _).1 hsize
  have heq : m.getBlockAddress addr = addr - addr % m.blockSize := by
    simp only [MemoryMapping.getBlockAddress, hmask, hk]
    exact and_not_mask_eq addr k haddr
  have hpos : 0 < m.blockSize := by rw [hk]; exact Nat.pos_pow_of_pos k (by decide)
  have hmod : addr % m.blockSize < m.blockSize := Nat.mod_lt _ hpos
  have hle : addr % m.blockSize ≤ addr := Nat.mod_le _ _
  refine ⟨heq, ?_, ?_, ?_⟩
  · rw [heq]
    exact Nat.dvd_sub_mod addr
  · rw [heq]; omega
  · rw [heq]; omega

theorem getBlockAddress_aligned_witness :
    (MemoryMapping.layout .ROW_RANK_BANK_COL 2 8 16384 64 64).getBlockAddress 305419896
        = 305419896 - 305419896
            % (MemoryMapping.layout .ROW_RANK_BANK_COL 2 8 16384 64 64).blockSize
      ∧ (MemoryMapping.layout .ROW_RANK_BANK_COL 2 8 16384 64 64).blockSize
          ∣ (MemoryMapping.layout .ROW_RANK_BANK_COL 2 8 16384 64 64).getBlockAddress 305419896
      ∧ (MemoryMapping.layout .ROW_RANK_BANK_COL 2 8 16384 64 64).getBlockAddress 305419896
          ≤ 305419896
      ∧ 305419896
          - (MemoryMapping.layout .ROW_RANK_BANK_COL 2 8 16384 64 64).getBlockAddress 305419896
        < (MemoryMapping.layout .ROW_RANK_BANK_COL 2 8 16384 64 64).blockSize :=
  getBlockAddress_aligned (MemoryMapping.layout .ROW_RANK_BANK_COL 2 8 16384 64 64) 305419896
    (by decide) (by decide) (by decide)

/-! ## Tables -/

theorem tableFind_tableSet {β : Type} (t : List (Nat × β)) (k k2 : Nat) (v : β) :
    tableFind (tableSet t k v) k2
      = if k = k2 then (tableFind t k).map (fun _ => v) else tableFind t k2 := by
  induction t with
  | nil => simp [tableSet, tableFind]
  | cons kv rest ih =>
    obtain ⟨a, w⟩ := kv
    by_cases h1 : a = k
    · subst h1
      by_cases h2 : a = k2 <;> simp [tableSet, tableFind, h2]
    · have h1b : ¬ k = a := fun h => h1 h.symm
      by_cases h3 : a = k2
      · subst h3
        simp [tableSet, tableFind, h1, h1b]
      · simp only [tableSet, tableFind, h1, h3, if_false, ih]

theorem tableFind_tableErase {β : Type} (t : List (Nat × β)) (k k2 : Nat) :
    tableFind (tableErase t k) k2 = if k = k2 then none else tableFind t k2 := by
  induction t with
  | nil => simp [tableErase, tableFind]
  | cons kv rest ih =>
    obtain ⟨a, w⟩ := kv
    by_cases h1 : a = k
    · subst h1
      by_cases h2 : a = k2
      · subst h2
        simpa [tableErase] using ih
      · simp [tableErase, tableFind, h2, ih]
    · have h1b : ¬ k = a := fun h => h1 h.symm
      by_cases h3 : a = k2
      · subst h3
        simp [tableErase, tableFind, h1, h1b]
      · simp only [tableErase, tableFind, h1, h3, if_false, ih]

theorem tableFind_none_iff (t : List (Nat × MigrationEntry)) (k : Nat) :
    tableFind t k = none ↔ k ∉ sourcePages t := by
  induction t with
  | nil => simp [tableFind, sourcePages]
  | cons kv rest ih =>
    obtain ⟨a, w⟩ := kv
    by_cases h1 : a = k
    · simp [tableFind, sourcePages, h1]
    · have h2 : ¬ k = a := fun h => h1 h.symm
      simp only [sourcePages] at ih
      simp [tableFind, sourcePages, h1, h2, ih]

theorem tableFind_mem (t : List (Nat × MigrationEntry)) (k : Nat) (m : MigrationEntry)
    (h : tableFind t k = some m) : (k, m) ∈ t := by
  induction t with
  | nil => simp [tableFind] at h
  | cons kv rest ih =>
    obtain ⟨a, w⟩ := kv
    by_cases h1 : a = k
    · simp [tableFind, h1] at h
      simp [h1, h]
    · simp [tableFind, h1] at h
      exact List.mem_cons_of_mem _ (ih h)

theorem sourcePages_tableSet (t : List (Nat × MigrationEntry)) (k : Nat) (v : MigrationEntry) :
    sourcePages (tableSet t k v) = sourcePages t := by
  induction t with
  | nil => simp [tableSet]
  | cons kv rest ih =>
    obtain ⟨a, w⟩ := kv
    by_cases h1 : a = k
    · simp [tableSet, sourcePages, h1]
    · simp only [sourcePages] at ih
      simp [tableSet, sourcePages, h1, ih]

theorem mem_tableSet (t : List (Nat × MigrationEntry)) (k : Nat) (v : MigrationEntry)
    (kv : Nat × MigrationEntry) (h : kv ∈ tableSet t k v) : kv ∈ t ∨ kv = (k, v) := by
  induction t with
  | nil => simp [tableSet] at h
  | cons hd rest ih =>
    obtain ⟨a, w⟩ := hd
    by_cases h1 : a = k
    · simp [tableSet, h1] at h
      rcases h with h | h
      · right; exact h
      · left; exact List.mem_cons_of_mem _ h
    · simp [tableSet, h1] at h
      rcases h with h | h
      · left; rw [h]; exact List.mem_cons_self _ _
      · rcases ih h with h2 | h2
        · left; exact List.mem_cons_of_mem _ h2
        · right; exact h2

theorem tableErase_sublist {β : Type} (t : List (Nat × β)) (k : Nat) :
    (tableErase t k).Sublist t := by
  induction t with
  | nil => simp [tableErase]
  | cons kv rest ih =>
    obtain ⟨a, w⟩ := kv
    by_cases h1 : a = k
    · simp only [tableErase, h1, if_true]
      exact List.Sublist.cons _ ih
    · simp only [tableErase, h1, if_false]
      exact List.Sublist.cons₂ _ ih

/-! ## Block lists -/

theorem blocksForward_refl (bs : List BlockEntry) : BlocksForward bs bs := by
  intro i b c hb hc
  rw [hb] at hc
  cases hc
  exact Nat.le_refl _

theorem blocksForward_set (bs : List BlockEntry) (i : Nat) (b b1 : BlockEntry)
    (hb : bs[i]? = some b) (hle : b.state.toNat ≤ b1.state.toNat) :
    BlocksForward bs (bs.set i b1) := by
  intro j x y hx hy
  by_cases hij : i = j
  · subst hij
    rw [hb] at hx
    cases hx
    have hlt : i < bs.length := by
      by_contra hc
      rw [List.getElem?_eq_none (by omega)] at hb
      exact Option.noConfusion hb
    rw [List.getElem?_set_self hlt] at hy
    cases hy
    exact hle
  · rw [List.getElem?_set_ne hij] at hy
    rw [hx] at hy
    cases hy
    exact Nat.le_refl _

/-! ## Steps of the controller and the migration table -/

theorem writtenKept_of_forward (before after : List BlockEntry)
    (h : BlocksForward before after) : WrittenKept before after := by
  intro i b c hb hc hw
  have hle := h i b c hb hc
  rw [hw] at hle
  cases hs : c.state <;> simp [hs, BlockState.toNat] at hle ⊢

theorem writtenKept_discard (blocks : List BlockEntry) :
    WrittenKept blocks (blocks.map discardBuffered) := by
  intro i b c hb hc hw
  rw [List.getElem?_map, hb] at hc
  simp only [Option.map_some', Option.some.injEq] at hc
  rw [← hc]
  simp [discardBuffered, hw]

theorem tableStep_update_forward (n : Nat) (t : List (Nat × MigrationEntry)) (page : Nat)
    (m m1 : MigrationEntry) (hfind : tableFind t page = some m)
    (hdest : m1.destPage = m.destPage) (hlen : m1.blocks.length = m.blocks.length)
    (hf : BlocksForward m.blocks m1.blocks) : TableStep n t none (tableSet t page m1) :=
  TableStep.update page m m1 hfind hdest hlen (Or.inl hf) (writtenKept_of_forward _ _ hf)

theorem accessNextLevel_frame (hm : HybridMemory) (now : Nat) (request : MemoryRequest)
    (caller callbackAddr : Nat) (partOfMigration : Bool) (page : Nat) (accepts : Tier → Bool) :
    (hm.accessNextLevel now request caller callbackAddr partOfMigration page accepts).2.migrations
        = hm.migrations
      ∧ (hm.accessNextLevel now request caller callbackAddr partOfMigration page
          accepts).2.blocksPerPage = hm.blocksPerPage := by
  unfold HybridMemory.accessNextLevel
  by_cases h : accepts (hm.tierOf request.addr) = true
  · simp [h]
  · cases ht : hm.tierOf request.addr <;> simp [ht] at h ⊢ <;> simp [h]

theorem access_tableStep (hm : HybridMemory) (now : Nat) (request : MemoryRequest)
    (caller : Nat) (accepts : Tier → Bool) :
    (hm.access now request caller accepts).2.blocksPerPage = hm.blocksPerPage
      ∧ TableStep hm.blocksPerPage hm.migrations none
          (hm.access now request caller accepts).2.migrations := by
  have hframe := fun r a => accessNextLevel_frame hm now r caller a false
  unfold HybridMemory.access
  simp only []
  split
  · exact ⟨(hframe _ _ _ _).2, by rw [(hframe _ _ _ _).1]; exact TableStep.same⟩
  · rename_i m hfind
    split
    · exact ⟨(hframe _ _ _ _).2, by rw [(hframe _ _ _ _).1]; exact TableStep.same⟩
    · split
      · exact ⟨(hframe _ _ _ _).2, by rw [(hframe _ _ _ _).1]; exact TableStep.same⟩
      · rename_i b hb
        split
        · exact ⟨(hframe _ _ _ _).2, by rw [(hframe _ _ _ _).1]; exact TableStep.same⟩
        · refine ⟨rfl, ?_⟩
          refine tableStep_update_forward _ _ _ m _ hfind rfl (by simp) ?_
          apply blocksForward_set _ _ b _ hb
          split <;> exact Nat.le_refl _
        · refine ⟨rfl, ?_⟩
          refine tableStep_update_forward _ _ _ m _ hfind rfl (by simp) ?_
          exact blocksForward_set _ _ b _ hb (Nat.le_refl _)
        · exact ⟨(hframe _ _ _ _).2, by rw [(hframe _ _ _ _).1]; exact TableStep.same⟩

theorem copyPage_tableStep (hm next : HybridMemory) (now srcPage destPage : Nat)
    (h : hm.copyPage now srcPage destPage = some next) :
    next.blocksPerPage = hm.blocksPerPage
      ∧ TableStep hm.blocksPerPage hm.migrations (some (srcPage, destPage))
          next.migrations := by
  unfold HybridMemory.copyPage at h
  split at h
  · exact Option.noConfusion h
  · rename_i hnone
    simp only [Option.some.injEq] at h
    subst h
    refine ⟨rfl, ?_⟩
    exact TableStep.insert srcPage
      { MigrationEntry.new destPage (hm.tierOfPage srcPage) (hm.tierOfPage destPage)
          (hm.readDelayOf (hm.tierOfPage srcPage)) (hm.writeDelayOf (hm.tierOfPage destPage))
          hm.blocksPerPage now with
        blocks := List.replicate hm.blocksPerPage BlockEntry.new }
      ((tableFind_none_iff _ _).1 hnone) (by simp)

theorem processRead_tableStep (hm next : HybridMemory) (now page request : Nat)
    (h : hm.processRead now page request = some next) :
    next.blocksPerPage = hm.blocksPerPage
      ∧ TableStep hm.blocksPerPage hm.migrations none next.migrations := by
  unfold HybridMemory.processRead at h
  split at h
  · exact Option.noConfusion h
  · rename_i m hfind
    split at h
    · exact Option.noConfusion h
    · split at h
      · exact Option.noConfusion h
      · rename_i b hb
        split at h
        · rename_i hst
          simp only [Option.some.injEq] at h
          subst h
          refine ⟨rfl, ?_⟩
          refine tableStep_update_forward _ _ _ m _ hfind rfl (by simp) ?_
          apply blocksForward_set _ _ b _ hb
          rw [hst]
          simp [BlockState.toNat]
        · exact Option.noConfusion h

theorem processWrite_tableStep (hm next : HybridMemory) (now page request : Nat)
    (h : hm.processWrite now page request = some next) :
    next.blocksPerPage = hm.blocksPerPage
      ∧ TableStep hm.blocksPerPage hm.migrations none next.migrations := by
  unfold HybridMemory.processWrite at h
  split at h
  · exact Option.noConfusion h
  · rename_i m hfind
    split at h
    · exact Option.noConfusion h
    · split at h
      · exact Option.noConfusion h
      · rename_i b hb
        split at h
        · rename_i hst
          simp only [Option.some.injEq] at h
          subst h
          refine ⟨rfl, ?_⟩
          refine tableStep_update_forward _ _ _ m _ hfind rfl (by simp) ?_
          apply blocksForward_set _ _ b _ hb
          rw [hst]
          simp [BlockState.toNat]
        · exact Option.noConfusion h

theorem processNotify_tableStep (hm next : HybridMemory) (h : hm.processNotify = some next) :
    next.blocksPerPage = hm.blocksPerPage
      ∧ TableStep hm.blocksPerPage hm.migrations none next.migrations := by
  unfold HybridMemory.processNotify at h
  split at h
  · exact Option.noConfusion h
  · simp only [Option.some.injEq] at h
    subst h
    exact ⟨rfl, TableStep.same⟩

theorem findReading_state (blocks : List BlockEntry) (request i : Nat) (b : BlockEntry)
    (hf : findReading blocks request = some i) (hb : blocks[i]? = some b) :
    b.state = .READING := by
  unfold findReading at hf
  rw [List.findIdx?_eq_some_iff_getElem] at hf
  obtain ⟨hlt, hp, _⟩ := hf
  rw [List.getElem?_eq_getElem hlt] at hb
  cases hb
  simp only [Bool.and_eq_true, beq_iff_eq] at hp
  exact hp.1

theorem accessCompleted_tableStep (hm next : HybridMemory) (request : Nat)
    (h : hm.accessCompleted request = some next) :
    next.blocksPerPage = hm.blocksPerPage
      ∧ TableStep hm.blocksPerPage hm.migrations none next.migrations := by
  unfold HybridMemory.accessCompleted at h
  split at h
  · exact Option.noConfusion h
  · rename_i cb hcb
    simp only [] at h
    split at h
    · split at h
      · simp only [Option.some.injEq] at h
        subst h
        exact ⟨rfl, TableStep.same⟩
      · rename_i m hfind
        split at h
        · simp only [Option.some.injEq] at h
          subst h
          exact ⟨rfl, TableStep.same⟩
        · rename_i i hi
          split at h
          · simp only [Option.some.injEq] at h
            subst h
            exact ⟨rfl, TableStep.same⟩
          · rename_i b hb
            have hst := findReading_state _ _ _ _ hi hb
            split at h
            · rename_i hrb
              split at h
              · simp only [Option.some.injEq] at h
                subst h
                refine ⟨rfl, ?_⟩
                refine tableStep_update_forward _ _ _ m _ hfind rfl (by simp) ?_
                exact blocksForward_set _ _ b _ hb (Nat.le_refl _)
              · simp only [Option.some.injEq] at h
                subst h
                exact ⟨rfl, TableStep.erase _⟩
            · simp only [Option.some.injEq] at h
              subst h
              refine ⟨rfl, ?_⟩
              refine tableStep_update_forward _ _ _ m _ hfind rfl (by simp) ?_
              apply blocksForward_set _ _ b _ hb
              rw [hst]
              simp [BlockState.toNat]
    · simp only [Option.some.injEq] at h
      subst h
      exact ⟨rfl, TableStep.same⟩

theorem complete_tableStep (hm next : HybridMemory) (srcPage : Nat)
    (h : hm.complete srcPage = some next) :
    next.blocksPerPage = hm.blocksPerPage
      ∧ TableStep hm.blocksPerPage hm.migrations none next.migrations := by
  unfold HybridMemory.complete at h
  split at h
  · exact Option.noConfusion h
  · split at h
    · simp only [Option.some.injEq] at h
      subst h
      exact ⟨rfl, TableStep.same⟩
    · exact Option.noConfusion h

theorem rollback_tableStep (hm next : HybridMemory) (srcPage : Nat)
    (h : hm.rollback srcPage = some next) :
    next.blocksPerPage = hm.blocksPerPage
      ∧ TableStep hm.blocksPerPage hm.migrations none next.migrations := by
  unfold HybridMemory.rollback at h
  split at h
  · exact Option.noConfusion h
  · rename_i m hfind
    split at h
    · exact Option.noConfusion h
    · rename_i hg
      simp only [Bool.or_eq_true, decide_eq_true_eq, not_or, Bool.not_eq_true] at hg
      obtain ⟨hrb, hleft⟩ := hg
      simp only [] at h
      split at h
      · simp only [Option.some.injEq] at h
        subst h
        refine ⟨rfl, ?_⟩
        exact TableStep.update _ m _ hfind rfl (by simp)
          (Or.inr ⟨hrb, rfl, Nat.pos_of_ne_zero hleft, rfl⟩) (writtenKept_discard _)
      · simp only [Option.some.injEq] at h
        subst h
        exact ⟨rfl, TableStep.erase _⟩

theorem finishMigration_tableStep (hm next : HybridMemory) (srcPage : Nat)
    (h : hm.finishMigration srcPage = some next) :
    next.blocksPerPage = hm.blocksPerPage
      ∧ TableStep hm.blocksPerPage hm.migrations none next.migrations := by
  unfold HybridMemory.finishMigration at h
  split at h
  · exact Option.noConfusion h
  · split at h
    · simp only [Option.some.injEq] at h
      subst h
      exact ⟨rfl, TableStep.erase _⟩
    · exact Option.noConfusion h

theorem step_tableStep (hm next : HybridMemory) (op : Op) (h : hm.step op = some next) :
    next.blocksPerPage = hm.blocksPerPage
      ∧ TableStep hm.blocksPerPage hm.migrations (copyOf op) next.migrations := by
  cases op with
  | access now request caller dramAccepts pcmAccepts =>
    simp only [HybridMemory.step, Option.some.injEq] at h
    subst h
    exact access_tableStep hm now request caller _
  | accessCompleted request => exact accessCompleted_tableStep hm next request h
  | copyPage now srcPage destPage => exact copyPage_tableStep hm next now srcPage destPage h
  | finishMigration srcPage => exact finishMigration_tableStep hm next srcPage h
  | complete srcPage => exact complete_tableStep hm next srcPage h
  | rollback srcPage => exact rollback_tableStep hm next srcPage h
  | processRead now page request => exact processRead_tableStep hm next now page request h
  | processWrite now page request => exact processWrite_tableStep hm next now page request h
  | processNotify => exact processNotify_tableStep hm next h

theorem tableStep_inv (n : Nat) (t t1 : List (Nat × MigrationEntry)) (ins : Option (Nat × Nat))
    (hs : TableStep n t ins t1) (hinv : TableInv n t) : TableInv n t1 := by
  obtain ⟨hsrc, hlen⟩ := hinv
  cases hs with
  | same => exact ⟨hsrc, hlen⟩
  | update page m m1 hfind hdest hl hfwd hkept =>
    refine ⟨?_, ?_⟩
    · rw [sourcePages_tableSet]; exact hsrc
    · intro kv hkv
      rcases mem_tableSet t page m1 kv hkv with h | h
      · exact hlen kv h
      · rw [h]
        show m1.blocks.length = n
        rw [hl]
        exact hlen (page, m) (tableFind_mem t page m hfind)
  | erase page =>
    have hsub := tableErase_sublist t page
    refine ⟨?_, ?_⟩
    · exact List.Nodup.sublist (hsub.map _) hsrc
    · intro kv hkv
      exact hlen kv (hsub.subset hkv)
  | insert page e h1 hl =>
    refine ⟨?_, ?_⟩
    · simp only [sourcePages, List.map_cons, List.nodup_cons]
      exact ⟨h1, hsrc⟩
    · intro kv hkv
      simp only [List.mem_cons] at hkv
      rcases hkv with hkv | hkv
      · rw [hkv]; exact hl
      · exact hlen kv hkv

theorem create_migrations (hm : HybridMemory)
    (blockSize pageSize dramRead dramWrite pcmRead pcmWrite threshold pcmOffset : Nat)
    (h : HybridMemory.create blockSize pageSize dramRead dramWrite pcmRead pcmWrite threshold
      pcmOffset = some hm) : hm.migrations = [] := by
  unfold HybridMemory.create at h
  split at h
  · simp only [Option.some.injEq] at h
    subst h
    rfl
  · exact Option.noConfusion h

theorem reachable_tableInv (hm : HybridMemory) (h : Reachable hm) :
    TableInv hm.blocksPerPage hm.migrations := by
  induction h with
  | create blockSize pageSize dramRead dramWrite pcmRead pcmWrite threshold pcmOffset h =>
    rw [create_migrations _ _ _ _ _ _ _ _ _ h]
    simp [TableInv, sourcePages]
  | step op _ hstep ih =>
    obtain ⟨hn, hts⟩ := step_tableStep _ _ op hstep
    rw [hn]
    exact tableStep_inv _ _ _ _ hts ih

theorem tableStep_forward (n : Nat) (t t1 : List (Nat × MigrationEntry))
    (ins : Option (Nat × Nat)) (hs : TableStep n t ins t1) (page : Nat) (e e1 : MigrationEntry)
    (hbefore : tableFind t page = some e) (hafter : tableFind t1 page = some e1) :
    (BlocksForward e.blocks e1.blocks ∨ RolledBackNow e e1) ∧ WrittenKept e.blocks e1.blocks := by
  have hsame : ∀ x : MigrationEntry,
      (BlocksForward x.blocks x.blocks ∨ RolledBackNow x x) ∧ WrittenKept x.blocks x.blocks :=
    fun x => ⟨Or.inl (blocksForward_refl _), writtenKept_of_forward _ _ (blocksForward_refl _)⟩
  cases hs with
  | same =>
    rw [hbefore] at hafter
    cases hafter
    exact hsame e
  | update k m m1 hfind hdest hl hfwd hkept =>
    rw [tableFind_tableSet] at hafter
    by_cases hk : k = page
    · subst hk
      rw [if_pos rfl, hfind] at hafter
      simp only [Option.map_some', Option.some.injEq] at hafter
      subst hafter
      rw [hfind] at hbefore
      cases hbefore
      exact ⟨hfwd, hkept⟩
    · rw [if_neg hk, hbefore] at hafter
      cases hafter
      exact hsame e
  | erase k =>
    rw [tableFind_tableErase] at hafter
    by_cases hk : k = page
    · rw [if_pos hk] at hafter
      exact Option.noConfusion hafter
    · rw [if_neg hk, hbefore] at hafter
      cases hafter
      exact hsame e
  | insert k e2 h1 hl =>
    by_cases hk : k = page
    · subst hk
      rw [(tableFind_none_iff t k).2 h1] at hbefore
      exact Option.noConfusion hbefore
    · simp only [tableFind, hk, if_false] at hafter
      rw [hbefore] at hafter
      cases hafter
      exact hsame e

/-! ## Hybrid memory controller -/

/-- C5: a step of the hybrid controller never takes a block of a migration
entry to an earlier state of the order NOT_READ, READING, BUFFERED, WRITTEN:
for every state, every operation and every source page whose entry is in the
table before and after the step, each block of the entry after the step is
in the same or a later state, the one exception being the step that rolls the
entry back, which is taken while blocks_left_to_write has not reached 0 (the
entry was not rolled back, is rolled back after the step, and has a positive
blocks_left_to_write that the step leaves as it is). Even then a written
block stays written. -/
theorem block_states_move_forward (hm next : HybridMemory) (op : Op) (page : Nat)
    (e e1 : MigrationEntry)
    (hstep : hm.step op = some next)
    (hbefore : tableFind hm.migrations page = some e)
    (hafter : tableFind next.migrations page = some e1) :
    ((∀ (i : Nat) (b c : BlockEntry), e.blocks[i]? = some b → e1.blocks[i]? = some c →
          b.state.toNat ≤ c.state.toNat)
        ∨ (e.rolledBack = false ∧ e1.rolledBack = true ∧ 0 < e.blocksLeftToWrite
            ∧ e1.blocksLeftToWrite = e.blocksLeftToWrite))
      ∧ (∀ (i : Nat) (b c : BlockEntry), e.blocks[i]? = some b → e1.blocks[i]? = some c →
          b.state = .WRITTEN → c.state = .WRITTEN) :=
  tableStep_forward _ _ _ _ (step_tableStep hm next op hstep).2 page e e1 hbefore hafter

theorem block_states_move_forward_witness :
    ((∀ (i : Nat) (b c : BlockEntry), demoEntry.blocks[i]? = some b →
          demoEntryReading.blocks[i]? = some c → b.state.toNat ≤ c.state.toNat)
        ∨ (demoEntry.rolledBack = false ∧ demoEntryReading.rolledBack = true
            ∧ 0 < demoEntry.blocksLeftToWrite
            ∧ demoEntryReading.blocksLeftToWrite = demoEntry.blocksLeftToWrite))
      ∧ (∀ (i : Nat) (b c : BlockEntry), demoEntry.blocks[i]? = some b →
          demoEntryReading.blocks[i]? = some c → b.state = .WRITTEN → c.state = .WRITTEN) :=
  block_states_move_forward demoCopying demoReading (.processRead 1 0 100) 0 demoEntry
    demoEntryReading (by decide) (by decide) (by decide)

/-- C7 (counterexample): in a controller with four blocks per page, the entry
just built by the MigrationEntry constructor with blocks-left argument 4
holds a vector of no block entry at all. -/
theorem constructed_entry_has_no_blocks :
    demoStart.blocksPerPage = 4
      ∧ (MigrationEntry.new 4 .DRAM .PCM 1 4 demoStart.blocksPerPage 0).blocks.length = 0
      ∧ (MigrationEntry.new 4 .DRAM .PCM 1 4 demoStart.blocksPerPage 0).blocks.length
          ≠ demoStart.blocksPerPage := by
  decide

/-- C7 (amended): every migration entry held in the migration table of a
reachable state holds a vector of blocks_per_page block entries, while an
entry just built by the MigrationEntry constructor holds an empty vector,
whatever its blocks-left argument. -/
theorem migration_entry_block_count (hm : HybridMemory) (h : Reachable hm) :
    (∀ kv ∈ hm.migrations, kv.2.blocks.length = hm.blocksPerPage)
      ∧ (∀ (destPage : Nat) (src dest : Tier) (readDelay writeDelay blocksLeft start : Nat),
          (MigrationEntry.new destPage src dest readDelay writeDelay blocksLeft start).blocks.length
            = 0) :=
  ⟨(reachable_tableInv hm h).2, fun _ _ _ _ _ _ _ => rfl⟩

theorem migration_entry_block_count_witness :
    (∀ kv ∈ demoReading.migrations, kv.2.blocks.length = demoReading.blocksPerPage)
      ∧ (∀ (destPage : Nat) (src dest : Tier) (readDelay writeDelay blocksLeft start : Nat),
          (MigrationEntry.new destPage src dest readDelay writeDelay blocksLeft start).blocks.length
            = 0) :=
  migration_entry_block_count demoReading
    (Reachable.step (.processRead 1 0 100)
      (Reachable.step (.copyPage 0 0 4)
        (Reachable.create 64 256 1 2 3 4 1 1024 (by decide : _ = some demoStart))
        (by decide : _ = some demoCopying))
      (by decide))

/-- C8: a migration entry constructed for n blocks starts with
blocksLeftToRead = blockLeftToCompleteRead = blocksLeftToWrite = n,
nextReadBlock = 0, nextWriteBlock = -1, rolledBack = false and lastWrite = 0,
and its destination page, source, destination, read delay, write delay and
start time are the constructor arguments. -/
theorem migrationEntry_new_fields (destPage : Nat) (src dest : Tier)
    (readDelay writeDelay n start : Nat) :
    (MigrationEntry.new destPage src dest readDelay writeDelay n start).blocksLeftToRead = n
      ∧ (MigrationEntry.new destPage src dest readDelay writeDelay n start).blockLeftToCompleteRead
          = n
      ∧ (MigrationEntry.new destPage src dest readDelay writeDelay n start).blocksLeftToWrite = n
      ∧ (MigrationEntry.new destPage src dest readDelay writeDelay n start).nextReadBlock = 0
      ∧ (MigrationEntry.new destPage src dest readDelay writeDelay n start).nextWriteBlock = -1
      ∧ (MigrationEntry.new destPage src dest readDelay writeDelay n start).rolledBack = false
      ∧ (MigrationEntry.new destPage src dest readDelay writeDelay n start).lastWrite = 0
      ∧ (MigrationEntry.new destPage src dest readDelay writeDelay n start).destPage = destPage
      ∧ (MigrationEntry.new destPage src dest readDelay writeDelay n start).src = src
      ∧ (MigrationEntry.new destPage src dest readDelay writeDelay n start).dest = dest
      ∧ (MigrationEntry.new destPage src dest readDelay writeDelay n start).readDelay = readDelay
      ∧ (MigrationEntry.new destPage src dest readDelay writeDelay n start).writeDelay
          = writeDelay
      ∧ (MigrationEntry.new destPage src dest readDelay writeDelay n start).startPageCopyTime
          = start :=
  ⟨rfl, rfl, rfl, rfl, rfl, rfl, rfl, rfl, rfl, rfl, rfl, rfl, rfl⟩

theorem page_block_arith (addr p b : Nat) (hbp : b ≤ p) :
    (addr % 2 ^ p) / 2 ^ b < 2 ^ p / 2 ^ b
      ∧ addr / 2 ^ p * 2 ^ p + (addr % 2 ^ p) / 2 ^ b * 2 ^ b + addr % 2 ^ b = addr := by
  have hpb : 2 ^ p = 2 ^ (p - b) * 2 ^ b := by
    rw [← Nat.pow_add]; congr 1; omega
  have hbpos : 0 < 2 ^ b := Nat.pos_pow_of_pos b (by decide)
  have hppos : 0 < 2 ^ p := Nat.pos_pow_of_pos p (by decide)
  have hdiv : 2 ^ p / 2 ^ b = 2 ^ (p - b) := by
    rw [hpb]; exact Nat.mul_div_cancel _ hbpos
  have hmodlt : addr % 2 ^ p < 2 ^ p := Nat.mod_lt _ hppos
  constructor
  · rw [hdiv, Nat.div_lt_iff_lt_mul hbpos, ← hpb]
    exact hmodlt
  · have hdvd : 2 ^ b ∣ 2 ^ p := Nat.pow_dvd_pow 2 hbp
    have h1 : addr % 2 ^ p % 2 ^ b = addr % 2 ^ b := Nat.mod_mod_of_dvd addr hdvd
    have h2 := Nat.div_add_mod (addr % 2 ^ p) (2 ^ b)
    have h3 := Nat.div_add_mod addr (2 ^ p)
    rw [h1] at h2
    rw [Nat.mul_comm] at h2 h3
    omega

/-- C9: for power-of-two page and block sizes with blockSize at most
pageSize and blocksPerPage = pageSize / blockSize, the page and block of
every address satisfy block < blocksPerPage and
page * pageSize + block * blockSize + (address mod blockSize) = address. -/
theorem page_block_decomposition (hm : HybridMemory) (addr : Nat)
    (hpage : isPowerOfTwo hm.pageSize = true) (hblock : isPowerOfTwo hm.blockSize = true)
    (hle : hm.blockSize ≤ hm.pageSize) (hbpp : hm.blocksPerPage = hm.pageSize / hm.blockSize) :
    hm.blockOf addr < hm.blocksPerPage
      ∧ hm.pageOf addr * hm.pageSize + hm.blockOf addr * hm.blockSize + addr % hm.blockSize
          = addr := by
  obtain ⟨p, hp⟩ := (isPowerOfTwo_iff _).1 hpage
  obtain ⟨b, hb⟩ := (isPowerOfTwo_iff _).1 hblock
  have hbp : b ≤ p := by
    rw [hp, hb] at hle
    exact (Nat.pow_le_pow_iff_right (by decide)).1 hle
  simp only [HybridMemory.blockOf, HybridMemory.pageOf, hbpp, hp, hb, log2_two_pow,
    Nat.shiftRight_eq_div_pow]
  exact page_block_arith addr p b hbp

theorem page_block_decomposition_witness :
    demoStart.blockOf 1000 < demoStart.blocksPerPage
      ∧ demoStart.pageOf 1000 * demoStart.pageSize + demoStart.blockOf 1000 * demoStart.blockSize
          + 1000 % demoStart.blockSize = 1000 :=
  page_block_decomposition demoStart 1000 (by decide) (by decide) (by decide) (by decide)

/-- C10: a foreground request whose page is covered by no migration entry is
handed by access to the DRAM tier when its address is below pcmOffset and to
the PCM tier when its address is at or above pcmOffset, under its own
address. -/
theorem access_without_migration (hm : HybridMemory) (now : Nat) (request : MemoryRequest)
    (caller : Nat) (accepts : Tier → Bool)
    (hnone : tableFind hm.migrations (hm.pageOf request.addr) = none) :
    (request.addr < hm.pcmOffset →
        (hm.access now request caller accepts).1 = .sent .DRAM request.addr (accepts .DRAM))
      ∧ (hm.pcmOffset ≤ request.addr →
        (hm.access now request caller accepts).1 = .sent .PCM request.addr (accepts .PCM)) := by
  constructor
  · intro hlt
    simp only [HybridMemory.access, hnone, HybridMemory.accessNextLevel, HybridMemory.tierOf,
      hlt, if_true]
    cases accepts .DRAM <;> simp
  · intro hge
    have hnlt : ¬ request.addr < hm.pcmOffset := by omega
    simp only [HybridMemory.access, hnone, HybridMemory.accessNextLevel, HybridMemory.tierOf,
      hnlt, if_false]
    cases accepts .PCM <;> simp

theorem access_without_migration_witness :
    (demoRequest.addr < demoStart.pcmOffset →
        (demoStart.access 0 demoRequest 1 (acceptsOf true true)).1
          = .sent .DRAM demoRequest.addr (acceptsOf true true .DRAM))
      ∧ (demoStart.pcmOffset ≤ demoRequest.addr →
        (demoStart.access 0 demoRequest 1 (acceptsOf true true)).1
          = .sent .PCM demoRequest.addr (acceptsOf true true .PCM)) :=
  access_without_migration demoStart 0 demoRequest 1 (acceptsOf true true) (by decide)

/-! ## Queued requests -/

/-- C15: a request placed in a bank queue by RequestAndTime(request,
enqueueTime) has its three waiting-on flags cleared, dequeueTimestamp = 0 and
startWaitingTimestamp = enqueueTimestamp = enqueueTime; the
default-constructed RequestAndTime has a null request, all timestamps 0 and
all flags cleared. -/
theorem requestAndTime_constructors (request : Option Nat) (enqueueTime : Nat) :
    ((RequestAndTime.new request enqueueTime).request = request
      ∧ (RequestAndTime.new request enqueueTime).waitingOnLowerPriority = false
      ∧ (RequestAndTime.new request enqueueTime).waitingOnSamePriority = false
      ∧ (RequestAndTime.new request enqueueTime).waitingOnHigherPriority = false
      ∧ (RequestAndTime.new request enqueueTime).dequeueTimestamp = 0
      ∧ (RequestAndTime.new request enqueueTime).startWaitingTimestamp
          = (RequestAndTime.new request enqueueTime).enqueueTimestamp
      ∧ (RequestAndTime.new request enqueueTime).enqueueTimestamp = enqueueTime)
    ∧ (RequestAndTime.default.request = none
      ∧ RequestAndTime.default.enqueueTimestamp = 0
      ∧ RequestAndTime.default.dequeueTimestamp = 0
      ∧ RequestAndTime.default.startWaitingTimestamp = 0
      ∧ RequestAndTime.default.waitingOnLowerPriority = false
      ∧ RequestAndTime.default.waitingOnSamePriority = false
      ∧ RequestAndTime.default.waitingOnHigherPriority = false) :=
  ⟨⟨rfl, rfl, rfl, rfl, rfl, rfl, rfl⟩, ⟨rfl, rfl, rfl, rfl, rfl, rfl, rfl⟩⟩

/-! ## Arguments -/

theorem firstWord_of_noSpace (val : List Char) (hne : val ≠ [])
    (hno : ∀ c ∈ val, isSpace c = false) : firstWord val = some val := by
  cases val with
  | nil => exact absurd rfl hne
  | cons c rest =>
    have hc : ¬ isSpace c = true := by
      rw [hno c (List.mem_cons_self _ _)]; exact Bool.noConfusion
    have htake : (c :: rest).takeWhile (fun x => !isSpace x) = c :: rest := by
      rw [List.takeWhile_eq_self_iff]
      intro x hx
      rw [hno x hx]
      rfl
    simp only [firstWord, List.dropWhile_cons_of_neg hc, htake]

/-- C12 (counterexample): after parseValue of the text a, space, b on a string
argument, getValue() returns the word a, not the text. -/
theorem parseValue_string_keeps_first_word :
    (Argument.parseValue extractString (Argument.new ['o'] ['d'] [] true true false)
        ['a', ' ', 'b']).getValue = ['a']
      ∧ (Argument.parseValue extractString (Argument.new ['o'] ['d'] [] true true false)
        ['a', ' ', 'b']).getValue ≠ ['a', ' ', 'b'] := by
  decide

/-- C12 (amended): after Argument<string>::parseValue(val), getValue() returns
the first white-space-delimited word of val, or the value held before when val
holds no word; for every val that is not empty and holds no white space,
getValue() returns val. -/
theorem parseValue_string_value (a : Argument (List Char)) (val : List Char) :
    (∀ word, firstWord val = some word → (a.parseValue extractString val).getValue = word)
      ∧ (firstWord val = none → (a.parseValue extractString val).getValue = a.getValue)
      ∧ (val ≠ [] → (∀ c ∈ val, isSpace c = false) →
          (a.parseValue extractString val).getValue = val) := by
  refine ⟨?_, ?_, ?_⟩
  · intro word hw
    simp [Argument.parseValue, Argument.getValue, extractString, hw]
  · intro hn
    simp [Argument.parseValue, Argument.getValue, extractString, hn]
  · intro hne hno
    simp [Argument.parseValue, Argument.getValue, extractString,
      firstWord_of_noSpace val hne hno]

theorem parseValue_string_value_witness :
    ((Argument.new ['o'] ['d'] [] true true false).parseValue extractString
        ['o', 'u', 't']).getValue = ['o', 'u', 't'] :=
  (parseValue_string_value (Argument.new ['o'] ['d'] [] true true false) ['o', 'u', 't']).2.2
    (by decide) (by decide)

/-- C13: for every argument, whatever the extraction operator of its type
does with the text, after parseValue(val) isSet() returns true, and
getDefaultValue(), getName(), getDesc(), isReq(), isFile() and isFlag()
return what they returned before. -/
theorem parseValue_sets_and_frames {T : Type} (extract : List Char → T → T)
    (a : Argument T) (val : List Char) :
    (a.parseValue extract val).isSet = true
      ∧ (a.parseValue extract val).getDefaultValue = a.getDefaultValue
      ∧ (a.parseValue extract val).getName = a.getName
      ∧ (a.parseValue extract val).getDesc = a.getDesc
      ∧ (a.parseValue extract val).isReq = a.isReq
      ∧ (a.parseValue extract val).isFile = a.isFile
      ∧ (a.parseValue extract val).isFlag = a.isFlag :=
  ⟨rfl, rfl, rfl, rfl, rfl, rfl, rfl⟩

theorem apply_frame {T : Type} (extract : List Char → T → T) (ops : List (ArgumentOp T)) :
    ∀ a : Argument T,
      (Argument.apply extract a ops).isReq = a.isReq
        ∧ (Argument.apply extract a ops).isFile = a.isFile
        ∧ (Argument.apply extract a ops).isFlag = a.isFlag := by
  induction ops with
  | nil => intro a; exact ⟨rfl, rfl, rfl⟩
  | cons op rest ih =>
    intro a
    cases op with
    | parseValue val => exact ih (a.parseValue extract val)
    | setValue value => exact ih (a.setValue value)

/-- C14: a newly constructed optional or positional argument has not been set
and holds its default (isSet() is false, getValue() = getDefaultValue() = the
defaultValue passed to the constructor); an OptionalArgument is not required
and a PositionalArgument is neither a file argument nor a flag, at
construction and after any calls of parseValue and setValue. -/
theorem new_argument_holds_default {C T : Type}
    (insertOptionalArgument : C → List Char → Argument T → C)
    (insertPositionalArgument : C → Argument T → C)
    (extract : List Char → T → T) (cont : C) (name desc : List Char) (defaultValue : T)
    (req file flag : Bool) (ops : List (ArgumentOp T)) :
    ((OptionalArgument.new insertOptionalArgument cont name desc defaultValue file flag).1.isSet
          = false
      ∧ (OptionalArgument.new insertOptionalArgument cont name desc defaultValue file
          flag).1.getValue = defaultValue
      ∧ (OptionalArgument.new insertOptionalArgument cont name desc defaultValue file
          flag).1.getDefaultValue = defaultValue
      ∧ (OptionalArgument.new insertOptionalArgument cont name desc defaultValue file
          flag).1.isReq = false
      ∧ (Argument.apply extract
          (OptionalArgument.new insertOptionalArgument cont name desc defaultValue file flag).1
          ops).isReq = false)
    ∧ ((PositionalArgument.new insertPositionalArgument cont name desc defaultValue req).1.isSet
          = false
      ∧ (PositionalArgument.new insertPositionalArgument cont name desc defaultValue
          req).1.getValue = defaultValue
      ∧ (PositionalArgument.new insertPositionalArgument cont name desc defaultValue
          req).1.getDefaultValue = defaultValue
      ∧ (PositionalArgument.new insertPositionalArgument cont name desc defaultValue
          req).1.isFile = false
      ∧ (PositionalArgument.new insertPositionalArgument cont name desc defaultValue
          req).1.isFlag = false
      ∧ (Argument.apply extract
          (PositionalArgument.new insertPositionalArgument cont name desc defaultValue req).1
          ops).isFile = false
      ∧ (Argument.apply extract
          (PositionalArgument.new insertPositionalArgument cont name desc defaultValue req).1
          ops).isFlag = false) := by
  refine ⟨⟨rfl, rfl, rfl, rfl, ?_⟩, ⟨rfl, rfl, rfl, rfl, rfl, ?_, ?_⟩⟩
  · rw [(apply_frame extract ops _).1]; rfl
  · rw [(apply_frame extract ops _).2.1]; rfl
  · rw [(apply_frame extract ops _).2.2]; rfl

/-! ## Bank ids, columns and block addresses -/

theorem extract_lt (addr w off : Nat) : (addr &&& fieldMask w off) >>> off < 2 ^ w := by
  apply Nat.lt_pow_two_of_testBit
  intro j hj
  rw [extract_testBit]
  have e : decide (j < w) = false := by simp; omega
  simp [e]

theorem fieldMask_lt (w off : Nat) : fieldMask w off < 2 ^ 64 := by
  simp only [fieldMask, addrBits]
  exact Nat.mod_lt _ (by decide)

/-- Without narrowing, the bank id of a layout is the rank index shifted by
the bank width, or-ed with the bank index. -/
theorem layout_getBankId (t : MappingType) (a b rw cl bs addr : Nat)
    (hfit : 2 ^ a * 2 ^ b ≤ 2 ^ 32) :
    (MemoryMapping.layout t (2 ^ a) (2 ^ b) rw cl bs).getBankId addr
      = (((MemoryMapping.layout t (2 ^ a) (2 ^ b) rw cl bs).getRankIndex addr) <<< b)
          ||| (MemoryMapping.layout t (2 ^ a) (2 ^ b) rw cl bs).getBankIndex addr := by
  have hlt := bankId_value_lt addr a
    (MemoryMapping.layout t (2 ^ a) (2 ^ b) rw cl bs).rankOffset b
    (MemoryMapping.layout t (2 ^ a) (2 ^ b) rw cl bs).bankOffset
  have hle : 2 ^ (a + b) ≤ 2 ^ 32 := by rw [Nat.pow_add]; exact hfit
  simp only [MemoryMapping.getBankId, addrBits, unsignedBits]
  rw [mod_or_mod]
  simp only [MemoryMapping.getRankIndex, MemoryMapping.getBankIndex, MemoryMapping.layout,
    log2_two_pow] at hlt ⊢
  exact Nat.mod_eq_of_lt (lt_of_lt_of_le hlt hle)

/-- A rank index and a bank index below the bank count are recovered from
the shifted-or-ed value. -/
theorem shift_or_inj (r1 r2 b1 b2 w : Nat) (h1 : b1 < 2 ^ w) (h2 : b2 < 2 ^ w)
    (h : (r1 <<< w) ||| b1 = (r2 <<< w) ||| b2) : r1 = r2 ∧ b1 = b2 := by
  have hbit : ∀ i, ((r1 <<< w) ||| b1).testBit i = ((r2 <<< w) ||| b2).testBit i := by
    intro i; rw [h]
  constructor
  · apply Nat.eq_of_testBit_eq
    intro j
    have := hbit (w + j)
    simp only [Nat.testBit_or, Nat.testBit_shiftLeft] at this
    rw [testBit_false_of_lt h1 (by omega), testBit_false_of_lt h2 (by omega)] at this
    have e : w + j - w = j := by omega
    simpa [e] using this
  · apply Nat.eq_of_testBit_eq
    intro j
    by_cases hj : j < w
    · have := hbit j
      simp only [Nat.testBit_or, Nat.testBit_shiftLeft] at this
      have e : decide (j ≥ w) = false := by simp; omega
      simpa [e] using this
    · rw [testBit_false_of_lt h1 (by omega), testBit_false_of_lt h2 (by omega)]

/-- C11 (counterexample): with 128 blocks per row the constructor succeeds and
address 4096 has column index 64, which is not a position of the 64-bit
dirtyColumns bitset; the bitset has 64 positions, not 128. -/
theorem column_index_outside_dirtyColumns :
    MemoryMapping.create .ROW_RANK_BANK_COL 1 1 1 128 64
        = some (MemoryMapping.layout .ROW_RANK_BANK_COL 1 1 1 128 64)
      ∧ (MemoryMapping.layout .ROW_RANK_BANK_COL 1 1 1 128 64).getColumnIndex 4096 = 64
      ∧ ¬ (MemoryMapping.layout .ROW_RANK_BANK_COL 1 1 1 128 64).getColumnIndex 4096
          < dirtyColumnsSize
      ∧ dirtyColumnsSize
          ≠ (MemoryMapping.layout .ROW_RANK_BANK_COL 1 1 1 128 64).getBlocksPerRow := by
  decide

/-- C11 (amended): a bank's dirty-column bitset has 64 positions; for every
power-of-two configuration and every address the column index returned by
getColumnIndex is below blocks_per_row, so for every blocks_per_row of at most
64 it is a valid position in the dirtyColumns bitset. -/
theorem column_index_in_dirtyColumns (t : MappingType)
    (numRanks banksPerRank rowsPerBank blocksPerRow blockSize addr : Nat)
    (h1 : isPowerOfTwo numRanks = true) (h2 : isPowerOfTwo banksPerRank = true)
    (h3 : isPowerOfTwo rowsPerBank = true) (h4 : isPowerOfTwo blocksPerRow = true)
    (h5 : isPowerOfTwo blockSize = true) :
    ∃ m, MemoryMapping.create t numRanks banksPerRank rowsPerBank blocksPerRow blockSize = some m
      ∧ dirtyColumnsSize = 64
      ∧ m.getBlocksPerRow = blocksPerRow
      ∧ m.getColumnIndex addr < blocksPerRow
      ∧ (blocksPerRow ≤ dirtyColumnsSize → m.getColumnIndex addr < dirtyColumnsSize) := by
  refine ⟨_, create_eq_layout t _ _ _ _ _ h1 h2 h3 h4 h5, rfl, rfl, ?_⟩
  obtain ⟨d, rfl⟩ := (isPowerOfTwo_iff _).1 h4
  have hlt : (MemoryMapping.layout t numRanks banksPerRank rowsPerBank (2 ^ d)
      blockSize).getColumnIndex addr < 2 ^ d := by
    simp only [MemoryMapping.getColumnIndex, MemoryMapping.layout, log2_two_pow]
    exact extract_lt _ _ _
  exact ⟨hlt, fun hle => lt_of_lt_of_le hlt hle⟩

theorem column_index_in_dirtyColumns_witness :
    ∃ m, MemoryMapping.create .ROW_RANK_BANK_COL 2 8 16384 64 64 = some m
      ∧ dirtyColumnsSize = 64
      ∧ m.getBlocksPerRow = 64
      ∧ m.getColumnIndex 305419896 < 64
      ∧ (64 ≤ dirtyColumnsSize → m.getColumnIndex 305419896 < dirtyColumnsSize) :=
  column_index_in_dirtyColumns .ROW_RANK_BANK_COL 2 8 16384 64 64 305419896
    (by decide) (by decide) (by decide) (by decide) (by decide)

/-- C16 (counterexample): with 2^16 ranks of 2^16 banks the constructor
succeeds, getNumBanks() is 0 and not num_ranks * banks_per_rank, and
getBankId(0) = 0 is not below it. -/
theorem getBankId_not_below_numBanks :
    MemoryMapping.create .ROW_RANK_BANK_COL 65536 65536 1 1 1
        = some (MemoryMapping.layout .ROW_RANK_BANK_COL 65536 65536 1 1 1)
      ∧ (MemoryMapping.layout .ROW_RANK_BANK_COL 65536 65536 1 1 1).getNumBanks = 0
      ∧ (MemoryMapping.layout .ROW_RANK_BANK_COL 65536 65536 1 1 1).getNumBanks
          ≠ 65536 * 65536
      ∧ ¬ (MemoryMapping.layout .ROW_RANK_BANK_COL 65536 65536 1 1 1).getBankId 0
          < (MemoryMapping.layout .ROW_RANK_BANK_COL 65536 65536 1 1 1).getNumBanks := by
  decide

/-- C16 (amended): for every power-of-two configuration with
num_ranks * banks_per_rank below 2^32 and every address, also one at or above
the total size, getNumBanks() = num_ranks * banks_per_rank and
getBankId(addr) is below it. -/
theorem getBankId_lt_numBanks (t : MappingType)
    (numRanks banksPerRank rowsPerBank blocksPerRow blockSize addr : Nat)
    (h1 : isPowerOfTwo numRanks = true) (h2 : isPowerOfTwo banksPerRank = true)
    (h3 : isPowerOfTwo rowsPerBank = true) (h4 : isPowerOfTwo blocksPerRow = true)
    (h5 : isPowerOfTwo blockSize = true)
    (hfit : numRanks * banksPerRank < 2 ^ unsignedBits) :
    ∃ m, MemoryMapping.create t numRanks banksPerRank rowsPerBank blocksPerRow blockSize = some m
      ∧ m.getNumBanks = numRanks * banksPerRank
      ∧ m.getBankId addr < m.getNumBanks := by
  refine ⟨_, create_eq_layout t _ _ _ _ _ h1 h2 h3 h4 h5, ?_, ?_⟩
  · simp only [MemoryMapping.getNumBanks, MemoryMapping.layout]
    exact Nat.mod_eq_of_lt hfit
  · obtain ⟨a, rfl⟩ := (isPowerOfTwo_iff _).1 h1
    obtain ⟨b, rfl⟩ := (isPowerOfTwo_iff _).1 h2
    have hnb : (MemoryMapping.layout t (2 ^ a) (2 ^ b) rowsPerBank blocksPerRow
        blockSize).getNumBanks = 2 ^ a * 2 ^ b := by
      simp only [MemoryMapping.getNumBanks, MemoryMapping.layout]
      exact Nat.mod_eq_of_lt hfit
    rw [hnb, layout_getBankId t a b _ _ _ addr (Nat.le_of_lt hfit), ← Nat.pow_add]
    have hlt := bankId_value_lt addr a
      (MemoryMapping.layout t (2 ^ a) (2 ^ b) rowsPerBank blocksPerRow blockSize).rankOffset b
      (MemoryMapping.layout t (2 ^ a) (2 ^ b) rowsPerBank blocksPerRow blockSize).bankOffset
    simp only [MemoryMapping.getRankIndex, MemoryMapping.getBankIndex, MemoryMapping.layout,
      log2_two_pow] at hlt ⊢
    exact hlt

theorem getBankId_lt_numBanks_witness :
    ∃ m, MemoryMapping.create .ROW_COL_RANK_BANK 2 8 16384 64 64 = some m
      ∧ m.getNumBanks = 2 * 8
      ∧ m.getBankId 18446744073709551615 < m.getNumBanks :=
  getBankId_lt_numBanks .ROW_COL_RANK_BANK 2 8 16384 64 64 18446744073709551615
    (by decide) (by decide) (by decide) (by decide) (by decide) (by decide)

/-- C17 (counterexample): with 2^31 ranks of 4 banks, addresses 0 and 2^32 have
the same bank id 0 although their rank indices 0 and 2^30 differ. -/
theorem getBankId_collision :
    MemoryMapping.create .ROW_RANK_BANK_COL 2147483648 4 1 1 1
        = some (MemoryMapping.layout .ROW_RANK_BANK_COL 2147483648 4 1 1 1)
      ∧ (MemoryMapping.layout .ROW_RANK_BANK_COL 2147483648 4 1 1 1).getBankId 0
          = (MemoryMapping.layout .ROW_RANK_BANK_COL 2147483648 4 1 1 1).getBankId 4294967296
      ∧ (MemoryMapping.layout .ROW_RANK_BANK_COL 2147483648 4 1 1 1).getRankIndex 0
          ≠ (MemoryMapping.layout .ROW_RANK_BANK_COL 2147483648 4 1 1 1).getRankIndex
              4294967296 := by
  decide

/-- C17 (amended): for every power-of-two configuration and all addresses a
and b, equal rank and bank indices give equal bank ids; when
num_ranks * banks_per_rank is at most 2^32, getBankId(a) = getBankId(b) if and
only if getRankIndex(a) = getRankIndex(b) and getBankIndex(a) =
getBankIndex(b). -/
theorem getBankId_eq_iff (t : MappingType)
    (numRanks banksPerRank rowsPerBank blocksPerRow blockSize a b : Nat)
    (h1 : isPowerOfTwo numRanks = true) (h2 : isPowerOfTwo banksPerRank = true)
    (h3 : isPowerOfTwo rowsPerBank = true) (h4 : isPowerOfTwo blocksPerRow = true)
    (h5 : isPowerOfTwo blockSize = true) :
    ∃ m, MemoryMapping.create t numRanks banksPerRank rowsPerBank blocksPerRow blockSize = some m
      ∧ (m.getRankIndex a = m.getRankIndex b ∧ m.getBankIndex a = m.getBankIndex b →
          m.getBankId a = m.getBankId b)
      ∧ (numRanks * banksPerRank ≤ 2 ^ unsignedBits →
          (m.getBankId a = m.getBankId b ↔
            m.getRankIndex a = m.getRankIndex b ∧ m.getBankIndex a = m.getBankIndex b)) := by
  refine ⟨_, create_eq_layout t _ _ _ _ _ h1 h2 h3 h4 h5, ?_, ?_⟩
  · rintro ⟨hr, hb⟩
    simp only [MemoryMapping.getBankId, hr, hb]
  · intro hfit
    obtain ⟨x, rfl⟩ := (isPowerOfTwo_iff _).1 h1
    obtain ⟨y, rfl⟩ := (isPowerOfTwo_iff _).1 h2
    constructor
    · intro h
      rw [layout_getBankId t x y _ _ _ a hfit, layout_getBankId t x y _ _ _ b hfit] at h
      have hba : (MemoryMapping.layout t (2 ^ x) (2 ^ y) rowsPerBank blocksPerRow
          blockSize).getBankIndex a < 2 ^ y := by
        simp only [MemoryMapping.getBankIndex, MemoryMapping.layout, log2_two_pow]
        exact extract_lt _ _ _
      have hbb : (MemoryMapping.layout t (2 ^ x) (2 ^ y) rowsPerBank blocksPerRow
          blockSize).getBankIndex b < 2 ^ y := by
        simp only [MemoryMapping.getBankIndex, MemoryMapping.layout, log2_two_pow]
        exact extract_lt _ _ _
      exact shift_or_inj _ _ _ _ y hba hbb h
    · rintro ⟨hr, hb⟩
      simp only [MemoryMapping.getBankId, hr, hb]

theorem getBankId_eq_iff_witness :
    (MemoryMapping.layout .ROW_RANK_BANK_COL 2 8 16384 64 64).getBankId 4096
        = (MemoryMapping.layout .ROW_RANK_BANK_COL 2 8 16384 64 64).getBankId 69632
      ↔ (MemoryMapping.layout .ROW_RANK_BANK_COL 2 8 16384 64 64).getRankIndex 4096
          = (MemoryMapping.layout .ROW_RANK_BANK_COL 2 8 16384 64 64).getRankIndex 69632
        ∧ (MemoryMapping.layout .ROW_RANK_BANK_COL 2 8 16384 64 64).getBankIndex 4096
          = (MemoryMapping.layout .ROW_RANK_BANK_COL 2 8 16384 64 64).getBankIndex 69632 := by
  obtain ⟨m, hm, _, hiff⟩ := getBankId_eq_iff .ROW_RANK_BANK_COL 2 8 16384 64 64 4096 69632
    (by decide) (by decide) (by decide) (by decide) (by decide)
  have hm2 : MemoryMapping.create .ROW_RANK_BANK_COL 2 8 16384 64 64
      = some (MemoryMapping.layout .ROW_RANK_BANK_COL 2 8 16384 64 64) := by decide
  rw [hm2] at hm
  cases hm
  exact hiff (by decide)

theorem blockAddress_testBit (addr bw i : Nat) :
    (addr &&& addrNot (fieldMask bw 0)).testBit i
      = (addr.testBit i && (decide (i < 64) && !decide (i < bw))) := by
  rw [Nat.testBit_and, addrNot_testBit _ _ (fieldMask_lt bw 0), fieldMask_testBit]
  by_cases h1 : i < 64 <;> by_cases h2 : i < bw <;> simp [h1, h2]

/-- A field that starts at or above the end of the block field reads the same
index from an address and from its block address. -/
theorem index_of_blockAddress (addr w off bw : Nat) (h : bw ≤ off) :
    ((addr &&& addrNot (fieldMask bw 0)) &&& fieldMask w off) >>> off
      = (addr &&& fieldMask w off) >>> off := by
  apply Nat.eq_of_testBit_eq
  intro j
  rw [extract_testBit, extract_testBit, blockAddress_testBit]
  have e : decide (off + j < bw) = false := by simp; omega
  by_cases h1 : off + j < 64 <;> simp [h1, e]

theorem blockIndex_of_blockAddress (addr bw : Nat) :
    ((addr &&& addrNot (fieldMask bw 0)) &&& fieldMask bw 0) >>> 0 = 0 := by
  apply Nat.eq_of_testBit_eq
  intro j
  rw [extract_testBit, blockAddress_testBit]
  by_cases h1 : j < 64 <;> by_cases h2 : j < bw <;> simp [h1, h2]

/-- C18: for every mapping type, power-of-two configuration and address, the
rank, bank, row and column indices (and so the bank id) of
getBlockAddress(addr) are those of addr, the block index of
getBlockAddress(addr) is 0, and getBlockAddress is idempotent. -/
theorem getBlockAddress_keeps_indices (t : MappingType)
    (numRanks banksPerRank rowsPerBank blocksPerRow blockSize addr : Nat)
    (h1 : isPowerOfTwo numRanks = true) (h2 : isPowerOfTwo banksPerRank = true)
    (h3 : isPowerOfTwo rowsPerBank = true) (h4 : isPowerOfTwo blocksPerRow = true)
    (h5 : isPowerOfTwo blockSize = true) :
    ∃ m, MemoryMapping.create t numRanks banksPerRank rowsPerBank blocksPerRow blockSize = some m
      ∧ m.getRankIndex (m.getBlockAddress addr) = m.getRankIndex addr
      ∧ m.getBankIndex (m.getBlockAddress addr) = m.getBankIndex addr
      ∧ m.getRowIndex (m.getBlockAddress addr) = m.getRowIndex addr
      ∧ m.getColumnIndex (m.getBlockAddress addr) = m.getColumnIndex addr
      ∧ m.getBankId (m.getBlockAddress addr) = m.getBankId addr
      ∧ m.getBlockIndex (m.getBlockAddress addr) = 0
      ∧ m.getBlockAddress (m.getBlockAddress addr) = m.getBlockAddress addr := by
  have hrank : (MemoryMapping.layout t numRanks banksPerRank rowsPerBank blocksPerRow
      blockSize).getRankIndex ((MemoryMapping.layout t numRanks banksPerRank rowsPerBank
        blocksPerRow blockSize).getBlockAddress addr)
      = (MemoryMapping.layout t numRanks banksPerRank rowsPerBank blocksPerRow
        blockSize).getRankIndex addr := by
    cases t <;>
      simp only [MemoryMapping.getRankIndex, MemoryMapping.getBlockAddress,
        MemoryMapping.layout] <;>
      exact index_of_blockAddress _ _ _ _ (by omega)
  have hbank : (MemoryMapping.layout t numRanks banksPerRank rowsPerBank blocksPerRow
      blockSize).getBankIndex ((MemoryMapping.layout t numRanks banksPerRank rowsPerBank
        blocksPerRow blockSize).getBlockAddress addr)
      = (MemoryMapping.layout t numRanks banksPerRank rowsPerBank blocksPerRow
        blockSize).getBankIndex addr := by
    cases t <;>
      simp only [MemoryMapping.getBankIndex, MemoryMapping.getBlockAddress,
        MemoryMapping.layout] <;>
      exact index_of_blockAddress _ _ _ _ (by omega)
  refine ⟨_, create_eq_layout t _ _ _ _ _ h1 h2 h3 h4 h5, hrank, hbank, ?_, ?_, ?_, ?_, ?_⟩
  · cases t <;>
      simp only [MemoryMapping.getRowIndex, MemoryMapping.getBlockAddress,
        MemoryMapping.layout] <;>
      exact index_of_blockAddress _ _ _ _ (by omega)
  · cases t <;>
      simp only [MemoryMapping.getColumnIndex, MemoryMapping.getBlockAddress,
        MemoryMapping.layout] <;>
      exact index_of_blockAddress _ _ _ _ (by omega)
  · simp only [MemoryMapping.getBankId, hrank, hbank]
  · simp only [MemoryMapping.getBlockIndex, MemoryMapping.getBlockAddress,
      MemoryMapping.layout]
    exact blockIndex_of_blockAddress _ _
  · simp only [MemoryMapping.getBlockAddress]
    rw [Nat.land_assoc, Nat.and_self]

theorem getBlockAddress_keeps_indices_witness :
    ∃ m, MemoryMapping.create .RANK_BANK_ROW_COL 2 8 16384 64 64 = some m
      ∧ m.getRankIndex (m.getBlockAddress 305419896) = m.getRankIndex 305419896
      ∧ m.getBankIndex (m.getBlockAddress 305419896) = m.getBankIndex 305419896
      ∧ m.getRowIndex (m.getBlockAddress 305419896) = m.getRowIndex 305419896
      ∧ m.getColumnIndex (m.getBlockAddress 305419896) = m.getColumnIndex 305419896
      ∧ m.getBankId (m.getBlockAddress 305419896) = m.getBankId 305419896
      ∧ m.getBlockIndex (m.getBlockAddress 305419896) = 0
      ∧ m.getBlockAddress (m.getBlockAddress 305419896) = m.getBlockAddress 305419896 :=
  getBlockAddress_keeps_indices .RANK_BANK_ROW_COL 2 8 16384 64 64 305419896
    (by decide) (by decide) (by decide) (by decide) (by decide)

end HMMsim
